import Mathlib

/-!
Verification of the boundary-to-measurement pipeline of the cell_edge_analysis
repository, embedded shallowly in Lean 4 over exact rational arithmetic.

Conventions used throughout this development:

* Plane points and vectors are pairs of rationals (`Q2`); the source works on
  numpy float64 arrays, which we idealise as exact rationals.
* `numpy.linalg.eig` is an external solver.  The fitting routine
  `fit_circle_to_segment` is therefore embedded as a function of the
  eigenvector `v` chosen by the solver; the predicate `IsChosenEig` states
  exactly the contract the source relies on (a generalized eigenpair
  `A v = lam B v` of the design matrix whose eigenvalue has minimal absolute
  value).  Theorems either hold for every such choice or exhibit a concrete
  legitimate choice.
* The source encodes an invalid circle fit as the float `0.0` and every caller
  filters with `curvature != 0`; the embedding mirrors this with the rational
  value `0`.  A valid fit in the source returns `sign * (1/r)` with
  `r = sqrt radicand`; the embedding returns `sign * (1/radicand)`, which has
  the same sign and the same zero set (the square root is positive on the
  positive reals), since every property claimed of the value is a sign or
  nullity property.
* `cv2.fillPoly` is an external rasterizer; functions that use it take the
  rasterizer as an explicit argument (a function from the integer corner list
  to the list of filled pixels).
-/

namespace CellEdge


/-- Plane point / vector with rational coordinates. -/
abbrev Q2 : Type := ℚ × ℚ

/-- Triple of rationals, the coefficient vector of the algebraic circle fit. -/
abbrev V3 : Type := ℚ × ℚ × ℚ

/-- Dot product in the plane. -/
def dotQ (u v : Q2) : ℚ := u.1 * v.1 + u.2 * v.2

/-- Pointwise subtraction in the plane. -/
def subQ (u v : Q2) : Q2 := (u.1 - v.1, u.2 - v.2)

/-- Pointwise addition in the plane. -/
def addQ (u v : Q2) : Q2 := (u.1 + v.1, u.2 + v.2)

/-- Scalar multiple in the plane. -/
def smulQ (c : ℚ) (u : Q2) : Q2 := (c * u.1, c * u.2)

/-- Rotation of a plane vector by 90 degrees: `(-y, x)`, as written in the
source (`normal = np.array([-segment_dir[1], segment_dir[0]])`). -/
def rot90 (u : Q2) : Q2 := (-u.2, u.1)

/-- Squared euclidean norm of a plane vector. -/
def sqnormQ (u : Q2) : ℚ := u.1 * u.1 + u.2 * u.2

/-- Python `int()` / numpy `astype(int)` conversion: truncation toward zero. -/
def pytrunc (q : ℚ) : ℤ := if 0 ≤ q then ⌊q⌋ else ⌈q⌉

/-- Python 3 `round` (and numpy float rounding): round half to even. -/
def pyround (q : ℚ) : ℤ :=
if q - ⌊q⌋ < 1/2 then ⌊q⌋
else if 1/2 < q - ⌊q⌋ then ⌊q⌋ + 1
else if 2 ∣ ⌊q⌋ then ⌊q⌋ else ⌊q⌋ + 1

/-- Arithmetic mean of a list of plane points (`segment.mean(axis=0)`). -/
def meanQ (pts : List Q2) : Q2 :=
(((pts.map Prod.fst).sum) / pts.length, ((pts.map Prod.snd).sum) / pts.length)

/-- AnalysisParameters from src/utils/data_structures.py, restricted to the
fields the analysis core reads.  The source dataclass omits `pixel_size`,
yet `CurvatureAnalyzer` reads `self.params.pixel_size`; the embedding carries
it as a field, as the analyzer requires. -/
structure AnalysisParameters where
  n_samples : ℕ := 75
  segment_length : ℕ := 9
  pixel_size : ℚ := 100
  radius_scale : ℚ := 100
  vector_width : ℚ := 5
  vector_depth : ℚ := 20
  edge_segment : ℕ := 10
  interior_threshold : ℚ := 0

/-! ## Circle fitting (src/analysis/curvature_analyzer.py, `_fit_circle_to_segment`) -/

/-- The lower radius bound of the fit validity gate:
`min_radius = self.params.segment_length * self.params.pixel_size / 2`. -/
def min_radius (P : AnalysisParameters) : ℚ :=
(P.segment_length : ℚ) * P.pixel_size / 2

/-- The radius validity gate from `_fit_circle_to_segment`
(lines 131-134): the fit is rejected exactly when `r < min_radius`
(the `np.isfinite` conjunct is vacuous for a real value of an exact square
root of a positive rational).  The source applies no upper bound to `r`. -/
def radiusGateRejects (P : AnalysisParameters) (r : ℚ) : Bool :=
decide (r < min_radius P)

/-- Chord across the sample window: `segment[-1] - segment[0]`. -/
def segment_dir (seg : List Q2) : Q2 := subQ (seg.getLastD (0, 0)) (seg.headI)

/-- Centered and physically scaled segment coordinates:
`(segment - segment.mean(axis=0)) * pixel_size`. -/
def centeredScaled (s : ℚ) (seg : List Q2) : List Q2 :=
seg.map (fun p => (s * (p.1 - (meanQ seg).1), s * (p.2 - (meanQ seg).2)))

/-- Rows of the design matrix `ZXY = [z, x, y]` with `z = x^2 + y^2`,
built from the centered, scaled coordinates. -/
def designRows (s : ℚ) (seg : List Q2) : List V3 :=
(centeredScaled s seg).map (fun c => (c.1 * c.1 + c.2 * c.2, c.1, c.2))

/-- Dot product of coefficient triples. -/
def dot3 (u v : V3) : ℚ := u.1 * v.1 + u.2.1 * v.2.1 + u.2.2 * v.2.2

/-- Triple scaled by a rational. -/
def smul3 (c : ℚ) (u : V3) : V3 := (c * u.1, c * u.2.1, c * u.2.2)

/-- Triple addition. -/
def add3 (u v : V3) : V3 := (u.1 + v.1, u.2.1 + v.2.1, u.2.2 + v.2.2)

/-- Zero triple. -/
def zero3 : V3 := (0, 0, 0)

/-- Action of the Gram matrix `A = ZXY^T ZXY` on a triple:
`A v = sum_i (row_i . v) * row_i`. -/
def aMul (rows : List V3) (v : V3) : V3 :=
(rows.map (fun r => smul3 (dot3 r v) r)).foldr add3 zero3

/-- Action of the constraint matrix `B = diag(4, 1, 1)` on a triple. -/
def bMul (v : V3) : V3 := (4 * v.1, v.2.1, v.2.2)

/-- Contract of the eigenvector selection performed by the source
(`np.linalg.eig(inv(B) @ A)` followed by `argmin(abs(eigenvalues))`):
`v` is a nonzero solution of the generalized problem `A v = lam B v`
(equivalent to `inv(B) A v = lam v`) whose eigenvalue `lam` has minimal
absolute value among the (rational) eigenvalues.  The code uses the
eigenvector only through scale-invariant expressions and through the
degeneracy test on its leading entry, so the free scaling of `v` is
harmless. -/
def IsChosenEig (rows : List V3) (lam : ℚ) (v : V3) : Prop :=
v ≠ zero3 ∧ aMul rows v = smul3 lam (bMul v) ∧
(∀ mu w, w ≠ zero3 → aMul rows w = smul3 mu (bMul w) → |lam| ≤ |mu|)

/-- Signum as a rational: `np.sign`. -/
def sgn (q : ℚ) : ℚ := if 0 < q then 1 else if q < 0 then -1 else 0

/-- Radicand of the radius square root, `a*a + b*b - v[0]/v[2]`. -/
def fitRadicand (v : V3) : ℚ :=
(-v.2.1 / (2 * v.1)) * (-v.2.1 / (2 * v.1)) +
(-v.2.2 / (2 * v.1)) * (-v.2.2 / (2 * v.1)) - v.1 / v.2.2

/-- Direction from the window centroid to the fitted circle center:
`center_point - segment.mean(axis=0)` with
`center_point = np.array([a, b]) / pixel_size + center`, where `center` is
the very same `segment.mean(axis=0)`. -/
def to_center (P : AnalysisParameters) (v : V3) (seg : List Q2) : Q2 :=
subQ (addQ (smulQ (1 / P.pixel_size) (-v.2.1 / (2 * v.1), -v.2.2 / (2 * v.1)))
      (meanQ seg))
  (meanQ seg)

/-- Embedding of `CurvatureAnalyzer._fit_circle_to_segment`
(src/analysis/curvature_analyzer.py, lines 80-161), given the eigenvector `v`
chosen by the external solver.  Every path on which the source returns the
float `0.0` (its invalid-fit sentinel, filtered out by all callers) returns
the rational `0` here:

* fewer than 3 segment points;
* `abs(v[0]) < 1e-10` (degenerate line fit; the NaN/Inf tests of the source
  are vacuous over exact arithmetic);
* `v[2] = 0`: the float quotient `v[0]/v[2]` is then infinite, and the fit is
  rejected by the radicand test or the finiteness test;
* non-positive radicand;
* radius below `min_radius` — phrased on the radicand, since
  `sqrt radicand < m` iff `radicand < m^2` for `m ≥ 0`;
* chord of near-zero norm (`normal_norm < 1e-10`, squared here);
* zero `to_center` (the source then assigns curvature `0`);
* zero dot product (the source then returns `sign = 0`, i.e. curvature `0.0`).

A valid fit returns `sign * (1/radicand)`: the sign and nullity of the
source value `sign * (1/r)`, `r = sqrt radicand`.  The sign is
`-np.sign(dot(to_center/|to_center|, normal/|normal|))`, equal to
`-sgn (dotQ to_center normal)` because both normalizations are by positive
scalars. -/
def fit_circle_to_segment (P : AnalysisParameters) (v : V3) (seg : List Q2) : ℚ :=
if seg.length < 3 then 0
else if |v.1| < 1 / 10 ^ 10 then 0
else if v.2.2 = 0 then 0
else if fitRadicand v ≤ 0 then 0
else if fitRadicand v < (min_radius P) * (min_radius P) then 0
else if sqnormQ (rot90 (segment_dir seg)) < 1 / 10 ^ 20 then 0
else if sqnormQ (to_center P v seg) = 0 then 0
else (-sgn (dotQ (to_center P v seg) (rot90 (segment_dir seg)))) * (1 / fitRadicand v)

/-! ## Sampling indices and segments -/

/-- `np.linspace(0, stop, num, dtype=int)`: `num` evenly spaced values from `0`
to `stop`, each truncated to an integer (the values are nonnegative, so
truncation is the floor, computed here with natural division). -/
def linspaceIdx (stop : ℕ) (num : ℕ) : List ℕ :=
(List.range num).map (fun i => if num = 1 then 0 else stop * i / (num - 1))

/-- `np.arange(idx - half, idx + half + 1) % n_points`: the `2*half + 1`
wrapped contour indices of a sample window.  numpy's `%` on a positive
modulus returns nonnegative representatives, as `Int.emod` does. -/
def wrapIndices (n : ℕ) (idx : ℕ) (half : ℕ) : List ℕ :=
(List.range (2 * half + 1)).map
  (fun j => (((idx : ℤ) - (half : ℤ) + (j : ℤ)) % (n : ℤ)).toNat)

/-- The sample window of contour points centered at `idx`:
`points[indices]` with `indices = np.arange(idx - half, idx + half + 1) % n`,
`half = seg_len // 2`. -/
def segment_of (points : List Q2) (seg_len : ℕ) (idx : ℕ) : List Q2 :=
(wrapIndices points.length idx (seg_len / 2)).map (fun i => points.getD i (0, 0))

/-! ## CurvatureAnalyzer.calculate_curvature (src/analysis/curvature_analyzer.py) -/

/-- Container mirroring `CurvatureData` (src/utils/data_structures.py).  The
constant `ref_curvatures` dictionary of the source is omitted (it carries no
measurement data). -/
structure CurvatureData where
  points : List Q2
  curvatures : List ℚ
  segment_indices : List (List ℕ)
  radius_scale : ℚ

/-- Embedding of `CurvatureAnalyzer.calculate_curvature` (lines 20-74),
parameterized by the circle-fit routine `fit` (the source calls
`self._fit_circle_to_segment`, embedded above as a function of the chosen
eigenvector).  Returns the `CurvatureData` together with the analyzer's
`self.valid_indices` list, or `none` when no measurement survives
(`if not curvatures: return None`).  A sample index is retained exactly when
its window has at least 3 points and the fit value is nonzero
(`if curvature != 0`). -/
def calculate_curvature (fit : List Q2 → ℚ) (points : List Q2)
    (P : AnalysisParameters) (valid_indices : Option (List ℕ)) :
    Option (CurvatureData × List ℕ) :=
let n := points.length
let sample_indices := valid_indices.getD (linspaceIdx (n - 1) P.n_samples)
let entries := sample_indices.filterMap (fun idx =>
  let inds := wrapIndices n idx (P.segment_length / 2)
  let seg := inds.map (fun i => points.getD i (0, 0))
  if seg.length < 3 then none
  else if fit seg = 0 then none
  else some (idx, fit seg, inds))
if entries.isEmpty then none
else some
  ({ points := entries.map (fun e => points.getD e.1 (0, 0)),
     curvatures := entries.map (fun e => e.2.1),
     segment_indices := entries.map (fun e => e.2.2),
     radius_scale := P.radius_scale },
   entries.map (fun e => e.1))

/-! ## The joint batch path (src/gui/file_panel.py, FilePanel.analyze_stack,
lines 405-455) -/

/-- Per-frame result of the joint curvature+intensity pass of
`FilePanel.analyze_stack`.  The retained indices of each measurement are
recorded along the same route the source takes: the curvature side filters
`zip(valid_indices, frame_curvatures)` by `curvature != 0` (the boolean mask
`valid_curv`), the intensity side applies the same mask to
`frame_intensities`, i.e. filters
`zip(zip(valid_indices, frame_intensities), frame_curvatures)` by the
curvature entry. -/
structure FrameJoint where
  valid_indices : List ℕ
  frame_intensities : List ℚ
  frame_curvatures : List ℚ
  kept_curv : List (ℕ × ℚ)
  kept_int : List (ℕ × ℚ)

/-- Embedding of the fluorescence+curvature branch of
`FilePanel.analyze_stack` (lines 405-455) for one frame:
`single` abstracts `FluorescenceAnalyzer._calculate_single_intensity`
(returning the stored `'mean'` when the point is valid), `fit` abstracts
`CurvatureAnalyzer._fit_circle_to_segment`.  Intensities are computed first
over the evenly spaced sample indices; curvature is then computed at the
intensity-valid indices; finally both arrays are filtered by the
`valid_curv = frame_curvatures != 0` mask. -/
def analyze_stack_frame (fit : List Q2 → ℚ) (single : List Q2 → Option ℚ)
    (contour : List Q2) (P : AnalysisParameters) : FrameJoint :=
let n := contour.length
let sample_indices := linspaceIdx (n - 1) P.n_samples
let validPairs := sample_indices.filterMap (fun idx =>
  (single (segment_of contour P.edge_segment idx)).map (fun m => (idx, m)))
let valid_indices := validPairs.map Prod.fst
let frame_intensities := validPairs.map Prod.snd
let frame_curvatures :=
  valid_indices.map (fun idx => fit (segment_of contour P.segment_length idx))
{ valid_indices := valid_indices,
  frame_intensities := frame_intensities,
  frame_curvatures := frame_curvatures,
  kept_curv := (valid_indices.zip frame_curvatures).filter
    (fun p => decide (p.2 ≠ 0)),
  kept_int := (((valid_indices.zip frame_intensities).zip
      frame_curvatures).filter (fun p => decide (p.2 ≠ 0))).map Prod.fst }

/-- Parameter record with the source's default values. -/
def paramsDefault : AnalysisParameters := {}

/-- Concrete three-point sample window used by several concrete
instantiations below.  Its design matrix has the fully rational generalized
eigenvalues 25/18, 40/9 and 5 for `B = diag(4,1,1)`, so the eigenvector the
source's solver selects is (a scalar multiple of) the one belonging to
25/18. -/
def segC2 : List Q2 := [(10, 10), (11, 12), (13, 11)]

/-- Parameters for the three-point window: `segment_length = 3`,
`pixel_size = 1`, other fields at their defaults. -/
def paramsC2 : AnalysisParameters :=
{ paramsDefault with segment_length := 3, pixel_size := 1 }

/-- Eigenvector of the generalized eigenvalue 25/18 of the design matrix of
`segC2` (unnormalized; the fit only uses it through scale-invariant
expressions and the magnitude test on its leading entry). -/
def vC2 : V3 := (1, -2, 6)

/-- Interior mask for the C2 scenario: a 20 x 20 frame whose cell interior is
the half `y <= 11` (indexed as the source does, `mask[y, x]`). -/
def maskC2 (y x : ℤ) : ℚ :=
if 0 ≤ x ∧ x < 20 ∧ 0 ≤ y ∧ y < 20 ∧ y ≤ 11 then 1 else 0

/-- Concrete exactly collinear three-point window. -/
def segC5 : List Q2 := [(0, 0), (1, 1), (2, 2)]

/-- Kernel eigenvector of the design matrix of `segC5` (generalized
eigenvalue 0, necessarily of minimal absolute value). -/
def vC5 : V3 := (0, 1, -1)

/-! ## Intensity sampling (src/analysis/fluorescence_analyzer.py and
src/gui/coordinated_analysis.py) -/

/-- Image container: `h`/`w` mirror `shape[0]`/`shape[1]`; `px y x` is the
value `image[y, x]`. -/
structure ImgQ where
  h : ℕ
  w : ℕ
  px : ℤ → ℤ → ℚ

/-- Result dictionary of `_calculate_single_intensity`.  The source stores
`np.std(values)`; to stay in exact arithmetic `var` records its square
(the variance).  `vmin`/`vmax` are `np.min`/`np.max`. -/
structure IntensityMeas where
  mean : ℚ
  vmin : ℚ
  vmax : ℚ
  var : ℚ
  rect_coords : List (ℤ × ℤ)
  raw_values : List ℚ
  normal : Q2
  center : Q2
  interior_overlap : ℚ

/-- The relation tying the unnormalized normal `u` of the source to the unit
vector `n` the source divides out (`normal = normal / norm`): `n` has unit
norm and `u` is a positive multiple of it.  When `|u|` is rational this
characterizes `u / |u|` exactly. -/
def normalizesTo (u n : Q2) : Prop :=
sqnormQ n = 1 ∧ ∃ c : ℚ, 0 < c ∧ u = smulQ c n

/-- The interior check of the normal direction shared by
`_calculate_single_intensity` (lines 120-126) and `check_point_validity`
(lines 61-67): step the test distance 5 along the unit normal, truncate to a
pixel, and flip the normal once when that pixel is within bounds and outside
the mask.  The flipped direction is not re-verified. -/
def flip_to_interior (mask : ImgQ) (current : Q2) (n : Q2) : Q2 :=
if 0 ≤ pytrunc (addQ current (smulQ 5 n)).1
    ∧ pytrunc (addQ current (smulQ 5 n)).1 < (mask.w : ℤ)
    ∧ 0 ≤ pytrunc (addQ current (smulQ 5 n)).2
    ∧ pytrunc (addQ current (smulQ 5 n)).2 < (mask.h : ℤ)
    ∧ mask.px (pytrunc (addQ current (smulQ 5 n)).2)
      (pytrunc (addQ current (smulQ 5 n)).1) = 0
  then smulQ (-1) n else n

/-- Embedding of `FluorescenceAnalyzer._calculate_single_intensity`
(src/analysis/fluorescence_analyzer.py, lines 94-180).  `rast` abstracts
`cv2.fillPoly` (corner list to filled pixel list, pixels as `(x, y)`); `n`
is the unit normal obtained from the external square-root normalization
(hypotheses tie it to the rotated tangent via `normalizesTo`); the
`norm < 1e-10` test is taken on the squared norm.  Every `return None` of
the source is a `none` here.  When the rasterized rectangle is empty the
source computes a NaN overlap, fails no comparison, and then returns `None`
at the empty-values check; the rational division by zero used here yields
overlap 0 and the same final `none`. -/
def calculate_single_intensity (rast : List (ℤ × ℤ) → List (ℤ × ℤ))
    (P : AnalysisParameters) (n : Q2) (seg : List Q2)
    (fluor mask : ImgQ) : Option IntensityMeas :=
  let border : ℚ := 20
  let current := seg.getD (seg.length / 2) (0, 0)
  if current.1 < border ∨ (fluor.w : ℚ) - border < current.1
      ∨ current.2 < border ∨ (fluor.h : ℚ) - border < current.2 then none
  else
  let tangent := subQ (seg.getLastD (0, 0)) seg.headI
  if sqnormQ (rot90 tangent) < 1 / 10 ^ 20 then none
  else
  let n2 := flip_to_interior mask current n
  let perp : Q2 := (-n2.2, n2.1)
  let center := addQ current (smulQ (P.vector_depth / 2) n2)
  let hw := P.vector_width / 2
  let hd := P.vector_depth / 2
  let rect_points : List Q2 :=
    [subQ (subQ center (smulQ hw perp)) (smulQ hd n2),
     subQ (addQ center (smulQ hw perp)) (smulQ hd n2),
     addQ (addQ center (smulQ hw perp)) (smulQ hd n2),
     addQ (subQ center (smulQ hw perp)) (smulQ hd n2)]
  let rc := rect_points.map (fun p => (pytrunc p.1, pytrunc p.2))
  if rc.any (fun c => decide (c.1 < 0) || decide ((fluor.w : ℤ) ≤ c.1)
      || decide (c.2 < 0) || decide ((fluor.h : ℤ) ≤ c.2)) then none
  else
  let pixels := rast rc
  let overlap := ((pixels.filter
      (fun c => decide (0 < mask.px c.2 c.1))).length : ℚ)
      / (pixels.length : ℚ) * 100
  if overlap < P.interior_threshold then none
  else
  let values := pixels.map (fun c => fluor.px c.2 c.1)
  match values with
  | [] => none
  | v0 :: vr => some
      { mean := (v0 :: vr).sum / ((v0 :: vr).length : ℚ),
        vmin := vr.foldl min v0,
        vmax := vr.foldl max v0,
        var := ((v0 :: vr).map (fun x => x * x)).sum / ((v0 :: vr).length : ℚ)
          - ((v0 :: vr).sum / ((v0 :: vr).length : ℚ))
            * ((v0 :: vr).sum / ((v0 :: vr).length : ℚ)),
        rect_coords := rc,
        raw_values := v0 :: vr,
        normal := n2,
        center := current,
        interior_overlap := overlap }

/-- Container mirroring `FluorescenceData` (src/utils/data_structures.py). -/
structure FluorescenceData where
  sampling_points : List IntensityMeas
  intensity_values : List ℚ
  sampling_regions : List (List (ℤ × ℤ))
  interior_overlaps : List ℚ

/-- Embedding of `FluorescenceAnalyzer.calculate_intensities`
(src/analysis/fluorescence_analyzer.py, lines 18-88), parameterized by the
per-point routine `single` (`self._calculate_single_intensity` applied to
the wrapped `edge_segment` window).  With `valid_indices` provided it
samples exactly those indices (the coordination mechanism); otherwise it
generates `min(n_samples, n_points)` evenly spaced ones — note the `min`,
absent from the curvature analyzer's generator.  The source also reads the
RAW `edge_data.contour` here while `calculate_curvature` prefers the
smoothed one; the contour is a parameter here, so the caller makes that
choice.  Returns the `FluorescenceData` (or `none` when nothing survives)
together with the analyzer's retained `self.valid_indices`. -/
def calculate_intensities (single : List Q2 → Option IntensityMeas)
    (contour : List Q2) (P : AnalysisParameters)
    (valid_indices : Option (List ℕ)) :
    Option FluorescenceData × List ℕ :=
  let n := contour.length
  let sample_indices := valid_indices.getD
    (linspaceIdx (n - 1) (min P.n_samples n))
  let entries := sample_indices.filterMap (fun idx =>
    (single (segment_of contour P.edge_segment idx)).map (fun m => (idx, m)))
  if entries.isEmpty then (none, entries.map Prod.fst)
  else
    (some { sampling_points := entries.map (fun e => e.2),
            intensity_values := entries.map (fun e => e.2.mean),
            sampling_regions := entries.map (fun e => e.2.rect_coords),
            interior_overlaps := entries.map (fun e => e.2.interior_overlap) },
     entries.map Prod.fst)

/-- Result dictionary of `CoordinatedAnalysis.check_point_validity`. -/
structure ValidityData where
  center : Q2
  normal : Q2
  rect_coords : List (ℤ × ℤ)
  segment_indices : List ℕ
  interior_overlap : ℚ

/-- Embedding of `CoordinatedAnalysis.check_point_validity`
(src/gui/coordinated_analysis.py, lines 30-111), with the same conventions
as `calculate_single_intensity` (whose window logic it duplicates): `rast`
abstracts `cv2.fillPoly` and `n` the normalized normal. -/
def check_point_validity (rast : List (ℤ × ℤ) → List (ℤ × ℤ))
    (P : AnalysisParameters) (n : Q2) (contour : List Q2) (idx : ℕ)
    (fluor mask : ImgQ) : Option ValidityData :=
  let border : ℚ := 20
  let current := contour.getD idx (0, 0)
  if current.1 < border ∨ (fluor.w : ℚ) - border < current.1
      ∨ current.2 < border ∨ (fluor.h : ℚ) - border < current.2 then none
  else
  let seg := segment_of contour P.edge_segment idx
  let tangent := subQ (seg.getLastD (0, 0)) seg.headI
  if sqnormQ (rot90 tangent) < 1 / 10 ^ 20 then none
  else
  let n2 := flip_to_interior mask current n
  let perp : Q2 := (-n2.2, n2.1)
  let center := addQ current (smulQ (P.vector_depth / 2) n2)
  let hw := P.vector_width / 2
  let hd := P.vector_depth / 2
  let rect_points : List Q2 :=
    [subQ (subQ center (smulQ hw perp)) (smulQ hd n2),
     subQ (addQ center (smulQ hw perp)) (smulQ hd n2),
     addQ (addQ center (smulQ hw perp)) (smulQ hd n2),
     addQ (subQ center (smulQ hw perp)) (smulQ hd n2)]
  let rc := rect_points.map (fun p => (pytrunc p.1, pytrunc p.2))
  if rc.any (fun c => decide (c.1 < 0) || decide ((fluor.w : ℤ) ≤ c.1)
      || decide (c.2 < 0) || decide ((fluor.h : ℤ) ≤ c.2)) then none
  else
  let pixels := rast rc
  let overlap := ((pixels.filter
      (fun c => decide (0 < mask.px c.2 c.1))).length : ℚ)
      / (pixels.length : ℚ) * 100
  if overlap < P.interior_threshold then none
  else some
    { center := current,
      normal := n2,
      rect_coords := rc,
      segment_indices := wrapIndices contour.length idx (P.edge_segment / 2),
      interior_overlap := overlap }

/-- Concrete inputs for the intensity routines: a 48 x 48 frame of constant
fluorescence 7; `maskIa` has its interior in the rows `y >= 26`, `maskIb` in
the rows `y <= 2`; the window `segI` is horizontal through `(24, 24)` with
rotated tangent `(0, 4)`, i.e. unit candidate normal `(0, 1)`; `rastI` is a
concrete rasterizer instance returning the single pixel `(22, 28)`. -/
def segI : List Q2 := [(22, 24), (24, 24), (26, 24)]

/-- Constant fluorescence frame for the concrete intensity runs. -/
def fluorI : ImgQ := { h := 48, w := 48, px := fun _ _ => 7 }

/-- Interior mask with the cell in the rows `y >= 26`. -/
def maskIa : ImgQ := { h := 48, w := 48, px := fun y _ => if 26 ≤ y then 1 else 0 }

/-- Interior mask with the cell in the rows `y <= 2`: both candidate test
pixels of `segI` lie outside it. -/
def maskIb : ImgQ := { h := 48, w := 48, px := fun y _ => if y ≤ 2 then 1 else 0 }

/-- Concrete rasterizer instance: the quadrilateral rasterizes to the single
pixel `(x, y) = (22, 28)`. -/
def rastI : List (ℤ × ℤ) → List (ℤ × ℤ) := fun _ => [(22, 28)]

/-- Output of `calculate_single_intensity` on `segI`/`maskIa` (no flip). -/
def dIa : IntensityMeas :=
{ mean := 7, vmin := 7, vmax := 7, var := 0,
  rect_coords := [(26, 24), (21, 24), (21, 44), (26, 44)],
  raw_values := [7], normal := (0, 1), center := (24, 24),
  interior_overlap := 100 }

/-- Output of `calculate_single_intensity` on `segI`/`maskIb` (flipped
normal, zero interior overlap, retained since the default threshold is 0). -/
def dIb : IntensityMeas :=
{ mean := 7, vmin := 7, vmax := 7, var := 0,
  rect_coords := [(21, 24), (26, 24), (26, 4), (21, 4)],
  raw_values := [7], normal := (0, -1), center := (24, 24),
  interior_overlap := 0 }

/-- Output of `check_point_validity` at index 1 of `segI` over `maskIa`. -/
def cIa : ValidityData :=
{ center := (24, 24), normal := (0, 1),
  rect_coords := [(26, 24), (21, 24), (21, 44), (26, 44)],
  segment_indices := [2, 0, 1, 2, 0, 1, 2, 0, 1, 2, 0],
  interior_overlap := 100 }

/-- Expected `CurvatureData` of the concrete `calculate_curvature` run of
the C9 witness. -/
def dC9 : CurvatureData :=
{ points := [(0, 0), (3, 0)], curvatures := [1, 1],
  segment_indices := [[3, 0, 1], [2, 3, 0]], radius_scale := 100 }

/-! ## IntensityAnalyzer.sample_intensity (src/analysis/intensity_analyzer.py,
lines 197-219) -/

/-- The `measure_type` selector of `IntensityAnalyzer`. -/
inductive MeasureKind where
  | minimum : MeasureKind
  | maximum : MeasureKind
  | mean : MeasureKind

/-- `np.linspace(0, stop, num)` over the rationals. -/
def linspaceQ (stop : ℚ) (num : ℕ) : List ℚ :=
(List.range num).map
  (fun (i : ℕ) => if num = 1 then 0 else stop * (i : ℚ) / ((num : ℚ) - 1))

/-- Whether the rounded probe pixel at parameter `pos` along the normal lies
within the image bounds. -/
def probe_in_bounds (image : ImgQ) (point normal : Q2) (pos : ℚ) : Prop :=
0 ≤ pyround (addQ point (smulQ pos normal)).1
∧ pyround (addQ point (smulQ pos normal)).1 < (image.w : ℤ)
∧ 0 ≤ pyround (addQ point (smulQ pos normal)).2
∧ pyround (addQ point (smulQ pos normal)).2 < (image.h : ℤ)

instance (image : ImgQ) (point normal : Q2) (pos : ℚ) :
    Decidable (probe_in_bounds image point normal pos) := by
  unfold probe_in_bounds
  infer_instance

/-- The image value at the rounded probe pixel. -/
def probe_value (image : ImgQ) (point normal : Q2) (pos : ℚ) : ℚ :=
image.px (pyround (addQ point (smulQ pos normal)).2)
  (pyround (addQ point (smulQ pos normal)).1)

/-- The probe sample list of `sample_intensity`: one entry per position of
`np.linspace(0, depth, num=depth)`; an out-of-bounds probe appends the value
0 (`intensities.append(0)`), it is not skipped. -/
def sample_probes (image : ImgQ) (point normal : Q2) (depth : ℕ) : List ℚ :=
(linspaceQ (depth : ℚ) depth).map (fun pos =>
  if probe_in_bounds image point normal pos
  then probe_value image point normal pos else 0)

/-- Embedding of `IntensityAnalyzer.sample_intensity` (lines 197-219):
reduce the zero-padded probe list by the selected measure (empty list gives
0). -/
def sample_intensity (image : ImgQ) (point normal : Q2) (depth : ℕ)
    (mt : MeasureKind) : ℚ :=
match sample_probes image point normal depth, mt with
| [], _ => 0
| v :: vr, MeasureKind.minimum => vr.foldl min v
| v :: vr, MeasureKind.maximum => vr.foldl max v
| v :: vr, MeasureKind.mean => (v :: vr).sum / ((v :: vr).length : ℚ)

/-- Constant image for the C10 witness. -/
def imgC10 : ImgQ := { h := 10, w := 10, px := fun _ _ => 5 }

/-! ## Contour smoothing (claim C8) -/

/-- Embedding of `EdgeDetector.smooth_contour`
(src/analysis/edge_detection.py, lines 15-46).  `savgol` abstracts
`scipy.signal.savgol_filter` (arguments: window size, polynomial order,
signal).  Window sizes below 3 return the input contour unchanged; otherwise
the window is made odd, each coordinate is wrap-padded by `window // 2`,
filtered, and unpadded (`smoothed[pad:-pad]`), and the coordinates are
re-paired (`np.column_stack`).  The `except` branch of the source returns
the input; the abstract `savgol` is total, so it has no counterpart here. -/
def smooth_contour (savgol : ℕ → ℕ → List ℚ → List ℚ)
    (contour : List Q2) (window_size : ℕ) : List Q2 :=
if window_size < 3 then contour
else
  let ws := if window_size % 2 = 0 then window_size + 1 else window_size
  let poly_order := min 3 (ws - 1)
  let pad := ws / 2
  let xs := contour.map Prod.fst
  let ys := contour.map Prod.snd
  let sx := savgol ws poly_order
    ((xs.drop (xs.length - pad)) ++ xs ++ (xs.take pad))
  let sy := savgol ws poly_order
    ((ys.drop (ys.length - pad)) ++ ys ++ (ys.take pad))
  ((sx.drop pad).take (sx.length - 2 * pad)).zip
    ((sy.drop pad).take (sy.length - 2 * pad))

/-- Embedding of `EdgeData.smooth_contour` (src/utils/data_structures.py,
lines 27-35).  `gaussian` abstracts `scipy.ndimage.gaussian_filter1d`; for
`sigma <= 0` the source stores and returns `self.contour.copy()`, equal to
the input. -/
def EdgeData_smooth_contour (gaussian : ℚ → List Q2 → List Q2)
    (contour : List Q2) (sigma : ℚ) : List Q2 :=
if 0 < sigma then gaussian sigma contour else contour

/-! ## Edge detection (src/analysis/edge_detection.py, EdgeDetector.detect_edges)

`skimage.morphology.remove_small_objects` and `cv2.findContours` are
external; they are modelled here concretely: connected components by
4-neighbourhood reachability (the default connectivity of
`remove_small_objects`), and one contour per surviving component, listing
its boundary pixels (pixels adjacent to background or to the image border).
The pixel ordering inside a contour and `contour_area` (used only to select
the largest contour) are model simplifications; no claim depends on them. -/

/-- Binary image: `px y x` is the value at row `y`, column `x`. -/
structure BinImg where
  h : ℕ
  w : ℕ
  px : ℕ → ℕ → ℤ

/-- Foreground pixels `(y, x)` of an image: `image > 0`. -/
def fgSet (img : BinImg) : Finset (ℕ × ℕ) :=
((Finset.range img.h) ×ˢ (Finset.range img.w)).filter
  (fun p => 0 < img.px p.1 p.2)

/-- One step of region growing: add the foreground pixels 4-adjacent to the
current set. -/
def dilateStep (img : BinImg) (S : Finset (ℕ × ℕ)) : Finset (ℕ × ℕ) :=
S ∪ (fgSet img).filter (fun p => ∃ q ∈ S,
  (p.1 = q.1 ∧ (p.2 = q.2 + 1 ∨ q.2 = p.2 + 1))
  ∨ (p.2 = q.2 ∧ (p.1 = q.1 + 1 ∨ q.1 = p.1 + 1)))

/-- The 4-connected component of a pixel within the foreground (empty when
the pixel is background): `h*w` growth steps saturate any component. -/
def component (img : BinImg) (p : ℕ × ℕ) : Finset (ℕ × ℕ) :=
(dilateStep img)^[img.h * img.w] (if p ∈ fgSet img then {p} else ∅)

/-- Model of `skimage.morphology.remove_small_objects(binary, min_size)`: a
pixel survives exactly when it is foreground and its component has at least
`min_size` pixels. -/
def remove_small_objects (img : BinImg) (min_size : ℕ) : BinImg :=
{ h := img.h, w := img.w,
  px := fun y x => if (y, x) ∈ fgSet img
      ∧ min_size ≤ (component img (y, x)).card then 1 else 0 }

/-- Row-major pixel key, the sort order of the contour model. -/
def pixelKey (w : ℕ) (p : ℕ × ℕ) : ℕ := p.1 * w + p.2

/-- Whether a component pixel lies on the component boundary: on the image
border, or with a 4-neighbour outside the foreground. -/
def isBoundaryPix (img : BinImg) (q : ℕ × ℕ) : Bool :=
decide (q.1 = 0) || decide (q.1 + 1 = img.h) || decide (q.2 = 0)
|| decide (q.2 + 1 = img.w)
|| !(decide ((q.1 + 1, q.2) ∈ fgSet img))
|| !(decide ((q.1, q.2 + 1) ∈ fgSet img))
|| !(decide ((q.1 - 1, q.2) ∈ fgSet img))
|| !(decide ((q.1, q.2 - 1) ∈ fgSet img))

/-- Model of `cv2.findContours(..., RETR_EXTERNAL, CHAIN_APPROX_NONE)`: one
contour per connected foreground component (represented by its minimal
pixel), listing the component's boundary pixels.  On an image with no
foreground it returns the empty list, the only property the claims use. -/
def find_contours (img : BinImg) : List (List (ℕ × ℕ)) :=
(((fgSet img).filter (fun p => ∀ q ∈ component img p,
    pixelKey img.w p ≤ pixelKey img.w q)).image (pixelKey img.w)).sort (· ≤ ·)
|>.map (fun k =>
  ((((component img (k / img.w, k % img.w)).filter
      (fun q => isBoundaryPix img q = true)).image (pixelKey img.w)).sort
    (· ≤ ·)).map (fun k2 => (k2 / img.w, k2 % img.w)))

/-- Model of `cv2.contourArea`, used only to pick the largest contour. -/
def contour_area (c : List (ℕ × ℕ)) : ℕ := c.length

/-- `max(contours, key=cv2.contourArea)` over a possibly empty list; Python's
`max` keeps the first of equal maxima, as this fold does. -/
def largest_contour (cs : List (List (ℕ × ℕ))) : Option (List (ℕ × ℕ)) :=
cs.foldl (fun best c => match best with
  | none => some c
  | some b => if contour_area b < contour_area c then some c else some b) none

/-- `binary = (binary_image > 0).astype(np.uint8)`. -/
def binaryOf (img : BinImg) : BinImg :=
{ h := img.h, w := img.w, px := fun y x => if 0 < img.px y x then 1 else 0 }

/-- Model of the drawn edge image of the success branch (display only). -/
def edgeImageOf (img : BinImg) (c : List (ℕ × ℕ)) : BinImg :=
{ h := img.h, w := img.w, px := fun y x => if (y, x) ∈ c then 255 else 0 }

/-- Embedding of `EdgeDetector.detect_edges`
(src/analysis/edge_detection.py, lines 120-160): threshold to binary, drop
components below 100 pixels, trace contours, and return the largest with an
edge image — or, when no contour remains, return a zero image and `None`.
The source wraps the body in a bare `except` returning the same
`(zeros, None)`, so no exception ever escapes; the embedding is total. -/
def detect_edges (img : BinImg) : BinImg × Option (List (ℕ × ℕ)) :=
match largest_contour (find_contours
    (remove_small_objects (binaryOf img) 100)) with
| some c => (edgeImageOf img c, some c)
| none => ({ h := img.h, w := img.w, px := fun _ _ => 0 }, none)

/-- The all-zero 4 x 4 mask. -/
def zeroMask4 : BinImg := { h := 4, w := 4, px := fun _ _ => 0 }

/-- A 6 x 6 mask holding one 2 x 2 foreground blob (component of 4 pixels,
below the minimum size 100). -/
def blobMask : BinImg :=
{ h := 6, w := 6,
  px := fun y x => if (y = 2 ∨ y = 3) ∧ (x = 2 ∨ x = 3) then 1 else 0 }

/-! ## Theorems

Helper lemmas are interleaved with the claim theorems, witnesses and
counterexamples that they support. -/

/-- Filtering the index/curvature pairs and the (index, intensity)/curvature
pairs by the same nonzero-curvature mask retains the same indices in the same
order.  `xs` plays the role of `zip(valid_indices, frame_intensities)` and
`g` the curvature evaluation. -/
theorem keptIndicesAux (xs : List (ℕ × ℚ)) (g : ℕ → ℚ) :
    ((((xs.map Prod.fst).zip ((xs.map Prod.fst).map g)).filter
        (fun p => decide (p.2 ≠ 0))).map Prod.fst)
    = ((((((xs.map Prod.fst).zip (xs.map Prod.snd)).zip
        ((xs.map Prod.fst).map g)).filter
        (fun p => decide (p.2 ≠ 0))).map Prod.fst).map Prod.fst) := by
  induction xs with
  | nil => rfl
  | cons x xs ih =>
  simp only [List.map_cons, List.zip_cons_cons, List.filter_cons]
  by_cases h : g x.1 = 0
  · simp only [h, decide_not]
    simpa [Function.comp] using ih
  · simp only [h, decide_not]
    simpa [h, Function.comp] using ih

/-- C1: in the joint per-frame pass of `FilePanel.analyze_stack` (the path
where both curvature and intensity are requested over the same conditioned
contour, parameters, interior mask and fluorescence frame), the sample
indices retained by the curvature measurement and those retained by the
intensity measurement are the same list — identical sets, in the same order —
and the two retained value lists have equal length.  This holds for every
behaviour of the per-point circle fit `fit` and of the per-point intensity
routine `single`, hence in particular for the concrete routines of the
source. -/
theorem C1_joint_retained_indices_eq (fit : List Q2 → ℚ)
    (single : List Q2 → Option ℚ) (contour : List Q2)
    (P : AnalysisParameters) :
    ((analyze_stack_frame fit single contour P).kept_curv.map Prod.fst
      = (analyze_stack_frame fit single contour P).kept_int.map Prod.fst)
    ∧ (analyze_stack_frame fit single contour P).kept_curv.length
      = (analyze_stack_frame fit single contour P).kept_int.length := by
  have h := keptIndicesAux
    ((linspaceIdx (contour.length - 1) P.n_samples).filterMap (fun idx =>
      (single (segment_of contour P.edge_segment idx)).map (fun m => (idx, m))))
    (fun idx => fit (segment_of contour P.segment_length idx))
  constructor
  · simpa [analyze_stack_frame, List.map_map, Function.comp] using h
  · have h2 : ((analyze_stack_frame fit single contour P).kept_curv.map
        Prod.fst).length
        = ((analyze_stack_frame fit single contour P).kept_int.map
        Prod.fst).length := by
      rw [show (analyze_stack_frame fit single contour P).kept_curv.map
          Prod.fst = (analyze_stack_frame fit single contour P).kept_int.map
          Prod.fst from by
        simpa [analyze_stack_frame, List.map_map, Function.comp] using h]
    simpa using h2

/-- Members of the retained-entry list of `calculate_curvature` record the fit
value of their own window, which is nonzero, and their own wrapped index
window. -/
theorem calcCurvEntryAux (fit : List Q2 → ℚ) (points : List Q2)
    (P : AnalysisParameters) (sample : List ℕ) (e : ℕ × ℚ × List ℕ)
    (he : e ∈ sample.filterMap (fun idx =>
      let inds := wrapIndices points.length idx (P.segment_length / 2)
      let seg := inds.map (fun i => points.getD i (0, 0))
      if seg.length < 3 then none
      else if fit seg = 0 then none
      else some (idx, fit seg, inds))) :
    e.2.1 = fit (segment_of points P.segment_length e.1) ∧ e.2.1 ≠ 0 ∧
    e.2.2 = wrapIndices points.length e.1 (P.segment_length / 2) := by
  rcases List.mem_filterMap.mp he with ⟨idx, _, hf⟩
  by_cases h3 : ((wrapIndices points.length idx (P.segment_length / 2)).map
      (fun i => points.getD i (0, 0))).length < 3
  · simp only [h3, if_true] at hf
    exact absurd hf (by simp)
  · by_cases h0 : fit ((wrapIndices points.length idx
        (P.segment_length / 2)).map (fun i => points.getD i (0, 0))) = 0
    · simp only [h3, if_false, h0, if_true] at hf
      exact absurd hf (by simp)
    · simp only [h3, if_false, h0] at hf
      cases hf
      exact ⟨rfl, h0, rfl⟩

/-- C9: whenever `calculate_curvature` succeeds, the `points`, `curvatures`
and `segment_indices` sequences of the returned `CurvatureData` all have the
length of the retained sample-index list; `points` is exactly the contour
evaluated at the retained indices; and position for position the recorded
curvature is the (nonzero) fit value of the window of the retained index at
that position — invalid fits never appear as a recorded zero. -/
theorem C9_curvature_output_aligned (fit : List Q2 → ℚ) (points : List Q2)
    (P : AnalysisParameters) (vi : Option (List ℕ)) (d : CurvatureData)
    (ret : List ℕ)
    (h : calculate_curvature fit points P vi = some (d, ret)) :
    (d.points.length = ret.length ∧ d.curvatures.length = ret.length ∧
      d.segment_indices.length = ret.length)
    ∧ d.points = ret.map (fun i => points.getD i (0, 0))
    ∧ (∀ k, k < ret.length →
        d.curvatures.getD k 0
          = fit (segment_of points P.segment_length (ret.getD k 0))
        ∧ d.curvatures.getD k 0 ≠ 0
        ∧ d.segment_indices.getD k []
          = wrapIndices points.length (ret.getD k 0)
            (P.segment_length / 2)) := by
  classical
  simp only [calculate_curvature] at h
  set entries := ((vi.getD (linspaceIdx (points.length - 1)
      P.n_samples)).filterMap (fun idx =>
    let inds := wrapIndices points.length idx (P.segment_length / 2)
    let seg := inds.map (fun i => points.getD i (0, 0))
    if seg.length < 3 then none
    else if fit seg = 0 then none
    else some (idx, fit seg, inds))) with hentries
  by_cases hne : entries.isEmpty
  · rw [if_pos hne] at h
    cases h
  · rw [if_neg hne] at h
    injection h with h1
    have hd := congrArg Prod.fst h1
    have hr := congrArg Prod.snd h1
    simp only [] at hd hr
    subst hd; subst hr
    refine ⟨⟨by simp, by simp, by simp⟩, ?_, ?_⟩
    · simp [List.map_map, Function.comp]
    · intro k hk
      simp only [List.length_map] at hk
      have hmem : entries.get ⟨k, hk⟩ ∈ entries := List.get_mem entries k hk
      have hprop := calcCurvEntryAux fit points P
        (vi.getD (linspaceIdx (points.length - 1) P.n_samples))
        (entries.get ⟨k, hk⟩) (by rw [← hentries]; exact hmem)
      have e1 : (entries.map (fun e => e.2.1)).getD k 0
          = (entries.get ⟨k, hk⟩).2.1 := by
        rw [List.getD_eq_getElem _ _ (by simpa using hk)]
        simp
      have e2 : (entries.map (fun e => e.1)).getD k 0
          = (entries.get ⟨k, hk⟩).1 := by
        rw [List.getD_eq_getElem _ _ (by simpa using hk)]
        simp
      have e3 : (entries.map (fun e => e.2.2)).getD k []
          = (entries.get ⟨k, hk⟩).2.2 := by
        rw [List.getD_eq_getElem _ _ (by simpa using hk)]
        simp
      rw [e1, e2, e3]
      exact hprop

/-- C2 (amended): the sign actually implemented by
`_fit_circle_to_segment`.  For every fit the source retains (nonzero result),
the returned curvature is positive exactly when the direction from the window
centroid to the fitted circle center opposes the 90-degree rotation of the
window chord — the candidate direction obtained by rotating the tangent,
used without any interior-mask verification — and negative exactly when the
two directions agree (positive dot product). -/
theorem C2_sign_rule_vs_rotated_chord (P : AnalysisParameters) (v : V3)
    (seg : List Q2) (h : fit_circle_to_segment P v seg ≠ 0) :
    (0 < fit_circle_to_segment P v seg ↔
      dotQ (to_center P v seg) (rot90 (segment_dir seg)) < 0)
    ∧ (fit_circle_to_segment P v seg < 0 ↔
      0 < dotQ (to_center P v seg) (rot90 (segment_dir seg))) := by
  simp only [fit_circle_to_segment] at h ⊢
  split_ifs at h ⊢ with h1 h2 h3 h4 h5 h6 h7
  any_goals exact absurd rfl h
  have hrad : 0 < fitRadicand v := lt_of_not_le h4
  rcases lt_trichotomy (dotQ (to_center P v seg) (rot90 (segment_dir seg))) 0
    with hlt | heq | hgt
  · have hs : sgn (dotQ (to_center P v seg) (rot90 (segment_dir seg)))
        = -1 := by
      simp [sgn, hlt, asymm hlt]
    rw [hs]
    constructor
    · constructor
      · intro _; exact hlt
      · intro _; positivity
    · constructor
      · intro hneg
        exfalso
        have : (0:ℚ) < 1 * (1 / fitRadicand v) := by positivity
        simpa using absurd (lt_trans hneg this) (by simp)
      · intro hgt0; exact absurd hgt0 (asymm hlt)
  · exfalso
    apply h
    simp [sgn, heq]
  · have hs : sgn (dotQ (to_center P v seg) (rot90 (segment_dir seg)))
        = 1 := by
      simp [sgn, hgt]
    rw [hs]
    constructor
    · constructor
      · intro hpos
        exfalso
        have hneg : -1 * (1 / fitRadicand v) < 0 := by
          have : (0:ℚ) < 1 / fitRadicand v := by positivity
          linarith
        exact absurd (lt_trans hpos hneg) (by simp)
      · intro hlt0; exact absurd hlt0 (asymm hgt)
    · constructor
      · intro _; exact hgt
      · intro _
        have : (0:ℚ) < 1 / fitRadicand v := by positivity
        linarith

/-- C3 (amended): the radius validity gate of `_fit_circle_to_segment` is the
lower bound alone.  A radius is rejected exactly when it is below
`min_radius = segment_length * pixel_size / 2`; every nonzero fit has
radicand (the squared radius) at least `min_radius^2`, and the source applies
no upper bound whatsoever, so arbitrarily large fitted radii are accepted. -/
theorem C3_radius_gate_lower_only (P : AnalysisParameters) (r : ℚ) (v : V3)
    (seg : List Q2) (hfit : fit_circle_to_segment P v seg ≠ 0) :
    (radiusGateRejects P r = true ↔ r < min_radius P)
    ∧ min_radius P * min_radius P ≤ fitRadicand v ∧ 0 < fitRadicand v := by
  constructor
  · simp [radiusGateRejects]
  · simp only [fit_circle_to_segment] at hfit
    split_ifs at hfit with h1 h2 h3 h4 h5 h6 h7
    any_goals exact absurd rfl hfit
    exact ⟨le_of_not_lt h5, lt_of_not_le h4⟩

/-- C3 counterexample: the claim asserts that fitted radii above roughly
1000 times the expected cell scale are marked invalid.  With the source's
default parameters (`segment_length = 9`, `pixel_size = 100` nm, so
`min_radius = 450` nm, and a generous expected cell scale of 10^5 nm), a
fitted radius of 10^12 nm — four orders of magnitude beyond 1000 cell
scales — passes the gate: no upper bound exists in the code. -/
theorem C3_counterexample_no_upper_gate :
    radiusGateRejects paramsDefault (10 ^ 12) = false
    ∧ (1000 * 100000 : ℚ) < 10 ^ 12
    ∧ min_radius paramsDefault = 450 := by
  refine ⟨?_, by norm_num, ?_⟩
  · simp only [radiusGateRejects, min_radius, paramsDefault]
    norm_num
  · simp only [min_radius, paramsDefault]
    norm_num

/-- Concrete evaluation of the circle fit on `segC2`: the fit is valid with
positive sign (the source value is `+1/sqrt(59/6)`; the embedding records the
sign-preserving `+1/(59/6) = 6/59`). -/
theorem fitC2_eval : fit_circle_to_segment paramsC2 vC2 segC2 = 6 / 59 := by
  norm_num [fit_circle_to_segment, fitRadicand, min_radius, to_center, meanQ,
    segment_dir, rot90, dotQ, sqnormQ, subQ, addQ, smulQ, sgn, paramsC2,
    paramsDefault, vC2, segC2]

/-- C3 witness: the amended gate theorem applied at the concrete window
`segC2` with eigenvector `vC2` and the probe radius 10^12. -/
theorem C3_witness :
    fit_circle_to_segment paramsC2 vC2 segC2 ≠ 0
    ∧ ((radiusGateRejects paramsC2 (10 ^ 12) = true ↔
        (10 ^ 12 : ℚ) < min_radius paramsC2)
      ∧ min_radius paramsC2 * min_radius paramsC2 ≤ fitRadicand vC2
      ∧ 0 < fitRadicand vC2) :=
  ⟨by rw [fitC2_eval]; norm_num,
   C3_radius_gate_lower_only paramsC2 (10 ^ 12) vC2 segC2
     (by rw [fitC2_eval]; norm_num)⟩

/-! ## Eigenstructure facts for the concrete windows -/

/-- Every rational generalized eigenvalue of the design matrix of `segC2`
(w.r.t. `B = diag(4,1,1)`) is one of 25/18, 40/9 and 5: these are the three
roots of the characteristic polynomial `det(A - mu B)`. -/
theorem eigC2_roots (mu : ℚ) (w : V3) (hw : w ≠ zero3)
    (he : aMul (designRows 1 segC2) w = smul3 mu (bMul w)) :
    mu = 25 / 18 ∨ mu = 40 / 9 ∨ mu = 5 := by
  obtain ⟨w0, w1, w2⟩ := w
  norm_num [segC2, designRows, centeredScaled, meanQ, List.map_cons,
    List.map_nil, List.sum_cons, List.sum_nil, List.length_cons,
    List.length_nil, aMul, dot3, smul3, add3, zero3, bMul, List.foldr_cons,
    List.foldr_nil, Prod.mk.injEq] at he
  obtain ⟨hc1, hc2, hc3⟩ := he
  have h1 : 50/3*w0 + 5/9*w1 - 5/3*w2 = 4*mu*w0 := by linear_combination hc1
  have h2 : 5/9*w0 + 14/3*w1 + w2 = mu*w1 := by linear_combination hc2
  have h3 : -5/3*w0 + w1 + 2*w2 = mu*w2 := by linear_combination hc3
  have hker : ∃ u ≠ (0 : Fin 3 → ℚ),
      (Matrix.of ![![50/3 - 4*mu, 5/9, -5/3],
        ![5/9, 14/3 - mu, 1],
        ![-5/3, 1, 2 - mu]]).mulVec u = 0 := by
    refine ⟨![w0, w1, w2], ?_, ?_⟩
    · intro hzero
      apply hw
      have e0 := congrFun hzero 0
      have e1 := congrFun hzero 1
      have e2 := congrFun hzero 2
      simp at e0 e1 e2
      simp [zero3, e0, e1, e2]
    · funext i
      fin_cases i
      · simp [Matrix.mulVec, Matrix.dotProduct, Fin.sum_univ_three]
        linear_combination h1
      · simp [Matrix.mulVec, Matrix.dotProduct, Fin.sum_univ_three]
        linear_combination h2
      · simp [Matrix.mulVec, Matrix.dotProduct, Fin.sum_univ_three]
        linear_combination h3
  have hdet := (Matrix.exists_mulVec_eq_zero_iff).mp hker
  simp [Matrix.det_fin_three] at hdet
  have hfac : (-4 : ℚ) * (mu - 25/18) * (mu - 40/9) * (mu - 5) = 0 := by
    linear_combination hdet
  rcases mul_eq_zero.mp hfac with hf | hf
  · rcases mul_eq_zero.mp hf with hf2 | hf2
    · rcases mul_eq_zero.mp hf2 with hf3 | hf3
      · exact absurd hf3 (by norm_num)
      · exact Or.inl (by linarith [sub_eq_zero.mp hf3])
    · exact Or.inr (Or.inl (by linarith [sub_eq_zero.mp hf2]))
  · exact Or.inr (Or.inr (by linarith [sub_eq_zero.mp hf]))

/-- The pair `(25/18, vC2)` is a legitimate choice of the source's
eigensolver on the window `segC2`: a nonzero generalized eigenpair whose
eigenvalue has minimal absolute value among all (rational) generalized
eigenvalues. -/
theorem eigC2_chosen : IsChosenEig (designRows 1 segC2) (25 / 18) vC2 := by
  refine ⟨?_, ?_, ?_⟩
  · simp [vC2, zero3]
  · simp only [segC2, designRows, centeredScaled, meanQ, List.map_cons,
      List.map_nil, List.sum_cons, List.sum_nil, List.length_cons,
      List.length_nil, aMul, dot3, smul3, add3, zero3, bMul, List.foldr_cons,
      List.foldr_nil, vC2, Prod.mk.injEq]
    norm_num
  · intro mu w hw he
    rcases eigC2_roots mu w hw he with h | h | h <;> subst h <;>
      norm_num [abs_of_pos]

/-- C2 counterexample.  On the window `segC2` with interior mask `maskC2`:

* `(25/18, vC2)` is a legitimate output of the source's eigensolver
  (nonzero generalized eigenpair of minimal absolute eigenvalue);
* the fit is retained with POSITIVE curvature (`6/59 > 0` in the embedding,
  `+1/sqrt(59/6)` in the source);
* the candidate direction is the rotated chord `(-1, 3)`; its unit vector is
  `(-1,3)/sqrt 10`, and the distance-5 verification step of the source
  (`test_point = current + normal*5`, truncated to pixel `(9, 16)` — the
  values are positive, so `astype(int)` is the floor) lands OUTSIDE the mask,
  so the verification flips the normal: the verified inward normal is the
  `(1, -3)` direction, whose own distance-5 step lands on pixel `(12, 7)`,
  inside the mask;
* the direction from the window centroid to the fitted center,
  `to_center = (1, -3)`, has POSITIVE dot product with the verified inward
  normal — the two directions are the SAME, so the claimed rule ("positive
  exactly when opposite") demands a negative curvature, yet the code returns
  a positive one.  The code in fact compares `to_center` against the
  unverified rotated chord only. -/
theorem C2_counterexample :
    IsChosenEig (designRows paramsC2.pixel_size segC2) (25 / 18) vC2
    ∧ fit_circle_to_segment paramsC2 vC2 segC2 = 6 / 59
    ∧ rot90 (segment_dir segC2) = (-1, 3)
    ∧ to_center paramsC2 vC2 segC2 = (1, -3)
    ∧ 0 < dotQ (to_center paramsC2 vC2 segC2) (1, -3)
    ∧ (-1 / Real.sqrt 10) ^ 2 + (3 / Real.sqrt 10) ^ 2 = 1
    ∧ (⌊(11 : ℝ) + 5 * (-1 / Real.sqrt 10)⌋ = 9
        ∧ ⌊(12 : ℝ) + 5 * (3 / Real.sqrt 10)⌋ = 16 ∧ maskC2 16 9 = 0)
    ∧ (⌊(11 : ℝ) + 5 * (1 / Real.sqrt 10)⌋ = 12
        ∧ ⌊(12 : ℝ) + 5 * (-3 / Real.sqrt 10)⌋ = 7 ∧ maskC2 7 12 = 1) := by
  have hpix : paramsC2.pixel_size = 1 := by
    norm_num [paramsC2, paramsDefault]
  have hs0 : (0 : ℝ) < Real.sqrt 10 := Real.sqrt_pos.mpr (by norm_num)
  have hs2 : Real.sqrt 10 ^ 2 = 10 := Real.sq_sqrt (by norm_num)
  have hlow : (3 : ℝ) < Real.sqrt 10 := by nlinarith [hs0, hs2]
  have hhigh : Real.sqrt 10 < 3.2 := by nlinarith [hs0, hs2]
  have hu1 : 1 / Real.sqrt 10 < 1 / 3 :=
    one_div_lt_one_div_of_lt (by norm_num) hlow
  have hu2 : 1 / (3.2 : ℝ) < 1 / Real.sqrt 10 :=
    one_div_lt_one_div_of_lt hs0 hhigh
  have hm1 : (-1 : ℝ) / Real.sqrt 10 = -(1 / Real.sqrt 10) := by ring
  have hm3 : (3 : ℝ) / Real.sqrt 10 = 3 * (1 / Real.sqrt 10) := by ring
  have hm1p : (1 : ℝ) / Real.sqrt 10 = 1 * (1 / Real.sqrt 10) := by ring
  have hm3n : (-3 : ℝ) / Real.sqrt 10 = -3 * (1 / Real.sqrt 10) := by ring
  refine ⟨by rw [hpix]; exact eigC2_chosen, fitC2_eval, ?_, ?_, ?_, ?_, ?_, ?_⟩
  · norm_num [segC2, rot90, segment_dir, subQ]
  · norm_num [segC2, paramsC2, paramsDefault, to_center, subQ, addQ, smulQ,
      meanQ, vC2]
  · norm_num [segC2, paramsC2, paramsDefault, to_center, subQ, addQ, smulQ,
      meanQ, vC2, dotQ]
  · have h10 : (-1 / Real.sqrt 10) ^ 2 + (3 / Real.sqrt 10) ^ 2
        = 10 / Real.sqrt 10 ^ 2 := by ring
    rw [h10, hs2]
    norm_num
  · refine ⟨?_, ?_, by norm_num [maskC2]⟩
    · rw [Int.floor_eq_iff]
      rw [hm1]
      constructor
      · push_cast
        nlinarith [hu1]
      · push_cast
        nlinarith [hu2]
    · rw [Int.floor_eq_iff]
      rw [hm3]
      constructor
      · push_cast
        nlinarith [hu2]
      · push_cast
        nlinarith [hu1]
  · refine ⟨?_, ?_, by norm_num [maskC2]⟩
    · rw [Int.floor_eq_iff]
      rw [hm1p]
      constructor
      · push_cast
        nlinarith [hu2]
      · push_cast
        nlinarith [hu1]
    · rw [Int.floor_eq_iff]
      rw [hm3n]
      constructor
      · push_cast
        nlinarith [hu1]
      · push_cast
        nlinarith [hu2]

/-- C2 witness: the amended sign-rule theorem applied to the retained fit on
the concrete window `segC2`. -/
theorem C2_witness :
    fit_circle_to_segment paramsC2 vC2 segC2 ≠ 0
    ∧ ((0 < fit_circle_to_segment paramsC2 vC2 segC2 ↔
        dotQ (to_center paramsC2 vC2 segC2) (rot90 (segment_dir segC2)) < 0)
      ∧ (fit_circle_to_segment paramsC2 vC2 segC2 < 0 ↔
        0 < dotQ (to_center paramsC2 vC2 segC2)
          (rot90 (segment_dir segC2)))) :=
  ⟨by rw [fitC2_eval]; norm_num,
   C2_sign_rule_vs_rotated_chord paramsC2 vC2 segC2
     (by rw [fitC2_eval]; norm_num)⟩

/-! ## Straight-line windows (claim C5) -/

/-- Sum of an affine image of a list. -/
theorem sum_map_affine (c d : ℚ) (ts : List ℚ) :
    (ts.map (fun t => c + t * d)).sum = c * ts.length + d * ts.sum := by
  induction ts with
  | nil => simp
  | cons t ts ih =>
    simp only [List.map_cons, List.sum_cons, List.length_cons, ih]
    push_cast
    ring

/-- Mean of points evenly placed on a line: the mean parameter on the same
line. -/
theorem meanQ_affine (base dir : Q2) (ts : List ℚ) (h : ts ≠ []) :
    meanQ (ts.map (fun t => addQ base (smulQ t dir)))
      = addQ base (smulQ (ts.sum / ts.length) dir) := by
  have hlen : (ts.length : ℚ) ≠ 0 :=
    Nat.cast_ne_zero.mpr (List.length_pos.mpr h).ne'
  have h1 : (ts.map (fun t => addQ base (smulQ t dir))).map Prod.fst
      = ts.map (fun t => base.1 + t * dir.1) := by
    simp [List.map_map, Function.comp, addQ, smulQ]
  have h2 : (ts.map (fun t => addQ base (smulQ t dir))).map Prod.snd
      = ts.map (fun t => base.2 + t * dir.2) := by
    simp [List.map_map, Function.comp, addQ, smulQ]
  unfold meanQ
  rw [h1, h2, sum_map_affine, sum_map_affine]
  simp only [List.length_map, addQ, smulQ, Prod.mk.injEq]
  constructor
  · field_simp
    ring
  · field_simp
    ring

/-- Design rows of a collinear window, in closed form. -/
theorem designRows_affine (s : ℚ) (base dir : Q2) (ts : List ℚ)
    (h : ts ≠ []) :
    designRows s (ts.map (fun t => addQ base (smulQ t dir)))
      = ts.map (fun t =>
        ((s * (t - ts.sum / ts.length) * dir.1) *
            (s * (t - ts.sum / ts.length) * dir.1) +
          (s * (t - ts.sum / ts.length) * dir.2) *
            (s * (t - ts.sum / ts.length) * dir.2),
         s * (t - ts.sum / ts.length) * dir.1,
         s * (t - ts.sum / ts.length) * dir.2)) := by
  unfold designRows centeredScaled
  rw [meanQ_affine base dir ts h]
  simp only [List.map_map, Function.comp, addQ, smulQ]
  refine List.map_congr_left ?_
  intro t ht
  simp only [Function.comp_apply]
  exact Prod.ext (by ring) (Prod.ext (by ring) (by ring))

/-- If a vector is orthogonal to every design row, the Gram matrix kills
it. -/
theorem aMul_of_dots_zero (rows : List V3) (k : V3)
    (h : ∀ r ∈ rows, dot3 r k = 0) : aMul rows k = zero3 := by
  induction rows with
  | nil => rfl
  | cons r rows ih =>
    have hr := h r (List.mem_cons_self r rows)
    have ht := ih (fun x hx => h x (List.mem_cons_of_mem _ hx))
    simp only [aMul, List.map_cons, List.foldr_cons] at ht ⊢
    rw [hr, ht]
    simp [smul3, add3, zero3]

/-- Quadratic form identity: `v . (A v)` is the sum of squared row dot
products. -/
theorem dot3_aMul_self (rows : List V3) (v : V3) :
    dot3 v (aMul rows v)
      = ((rows.map (fun r => dot3 r v)).map (fun x => x * x)).sum := by
  induction rows with
  | nil => simp [aMul, dot3, zero3]
  | cons r rows ih =>
    have hadd : ∀ a b : V3, dot3 v (add3 a b) = dot3 v a + dot3 v b := by
      intro a b; unfold dot3 add3; ring
    have hsm : ∀ (c : ℚ) (u : V3), dot3 v (smul3 c u) = c * dot3 v u := by
      intro c u; unfold dot3 smul3; ring
    have hsymm : ∀ u : V3, dot3 v u = dot3 u v := by
      intro u; unfold dot3; ring
    simp only [aMul, List.map_cons, List.foldr_cons, List.sum_cons] at ih ⊢
    rw [hadd, hsm, ih, hsymm r]

/-- A list of rationals whose squares sum to zero is identically zero. -/
theorem sq_sum_zero (l : List ℚ) (h : (l.map (fun x => x * x)).sum = 0) :
    ∀ x ∈ l, x = 0 := by
  induction l with
  | nil => simp
  | cons a l ih =>
    simp only [List.map_cons, List.sum_cons] at h
    have hnn : 0 ≤ ((l.map (fun x => x * x)).sum) := by
      apply List.sum_nonneg
      intro x hx
      rcases List.mem_map.mp hx with ⟨y, _, rfl⟩
      exact mul_self_nonneg y
    have ha : a * a = 0 := by nlinarith [mul_self_nonneg a]
    intro x hx
    rcases List.mem_cons.mp hx with rfl | hx
    · exact mul_self_eq_zero.mp ha
    · exact ih (by linarith [h, ha]) x hx

/-- Three distinct members force length at least three. -/
theorem three_distinct_le_length (ts : List ℚ) (t1 t2 t3 : ℚ)
    (h1 : t1 ∈ ts) (h2 : t2 ∈ ts) (h3 : t3 ∈ ts)
    (d12 : t1 ≠ t2) (d13 : t1 ≠ t3) (d23 : t2 ≠ t3) : 3 ≤ ts.length := by
  have hsub : ({t1, t2, t3} : Finset ℚ) ⊆ ts.toFinset := by
    intro x hx
    simp only [Finset.mem_insert, Finset.mem_singleton] at hx
    rcases hx with rfl | rfl | rfl <;> simpa [List.mem_toFinset]
  have hcard : ({t1, t2, t3} : Finset ℚ).card = 3 := by
    rw [Finset.card_insert_of_not_mem (by simp [d12, d13]),
      Finset.card_insert_of_not_mem (by simp [d23]), Finset.card_singleton]
  calc 3 = ({t1, t2, t3} : Finset ℚ).card := hcard.symm
    _ ≤ ts.toFinset.card := Finset.card_le_card hsub
    _ ≤ ts.length := ts.toFinset_card_le

/-- C5 (amended): a sample window whose points lie exactly on a straight line
(with at least three distinct points) is rejected by the degenerate-line gate
of `_fit_circle_to_segment` — the fit returns the invalid sentinel 0 and the
point is dropped by every caller, NOT retained with curvature近 zero.  This
holds for every eigenpair the source's solver may select: the minimal
eigenvalue is 0, its eigenvectors have vanishing leading coefficient, and the
`abs(v[0]) < 1e-10` gate fires. -/
theorem C5_straight_line_window_dropped (P : AnalysisParameters)
    (base dir : Q2) (ts : List ℚ) (lam : ℚ) (v : V3)
    (hdir : dir ≠ (0, 0)) (hs : P.pixel_size ≠ 0)
    (t1 t2 t3 : ℚ) (h1 : t1 ∈ ts) (h2 : t2 ∈ ts) (h3 : t3 ∈ ts)
    (d12 : t1 ≠ t2) (d13 : t1 ≠ t3) (d23 : t2 ≠ t3)
    (heig : IsChosenEig
      (designRows P.pixel_size (ts.map (fun t => addQ base (smulQ t dir))))
      lam v) :
    fit_circle_to_segment P v (ts.map (fun t => addQ base (smulQ t dir)))
      = 0 := by
  have hlen3 : 3 ≤ ts.length :=
    three_distinct_le_length ts t1 t2 t3 h1 h2 h3 d12 d13 d23
  have hne : ts ≠ [] := by
    intro hcon
    rw [hcon] at h1
    exact absurd h1 (List.not_mem_nil t1)
  have hD : dir.1 * dir.1 + dir.2 * dir.2 ≠ 0 := by
    intro hcon
    apply hdir
    have hx : dir.1 = 0 := by nlinarith [mul_self_nonneg dir.1, mul_self_nonneg dir.2]
    have hy : dir.2 = 0 := by nlinarith [mul_self_nonneg dir.1, mul_self_nonneg dir.2]
    exact Prod.ext hx hy
  set s := P.pixel_size with hsdef
  set m := ts.sum / ts.length with hmdef
  set rows := designRows s (ts.map (fun t => addQ base (smulQ t dir)))
    with hrowsdef
  have hrows : rows = ts.map (fun t =>
      ((s * (t - m) * dir.1) * (s * (t - m) * dir.1) +
        (s * (t - m) * dir.2) * (s * (t - m) * dir.2),
       s * (t - m) * dir.1,
       s * (t - m) * dir.2)) := designRows_affine s base dir ts hne
  -- the kernel direction of a line through the centroid
  have hkdots : ∀ r ∈ rows, dot3 r (0, -dir.2, dir.1) = 0 := by
    intro r hr
    rw [hrows] at hr
    rcases List.mem_map.mp hr with ⟨t, _, rfl⟩
    unfold dot3
    ring
  have hk0 : ((0 : ℚ), -dir.2, dir.1) ≠ zero3 := by
    intro hcon
    apply hdir
    unfold zero3 at hcon
    have hx := congrArg (fun p : V3 => p.2.1) hcon
    have hy := congrArg (fun p : V3 => p.2.2) hcon
    simp only at hx hy
    refine Prod.ext ?_ ?_
    · exact hy
    · simpa using congrArg Neg.neg hx
  have hbk : aMul rows (0, -dir.2, dir.1)
      = smul3 0 (bMul (0, -dir.2, dir.1)) := by
    rw [aMul_of_dots_zero rows _ hkdots]
    simp [smul3, zero3, bMul]
  have hmin := heig.2.2 0 (0, -dir.2, dir.1) hk0 hbk
  have hlam : lam = 0 := by
    have := abs_nonneg lam
    have h0 : |lam| = 0 := le_antisymm (by simpa using hmin) this
    exact abs_eq_zero.mp h0
  have hav : aMul rows v = zero3 := by
    have h := heig.2.1
    rw [hlam] at h
    rw [h]
    simp [smul3, zero3]
  have hdots : ∀ r ∈ rows, dot3 r v = 0 := by
    have hsq := dot3_aMul_self rows v
    rw [hav] at hsq
    have hz : dot3 v zero3 = 0 := by unfold dot3 zero3; ring
    rw [hz] at hsq
    intro r hr
    have := sq_sum_zero (rows.map (fun r => dot3 r v)) hsq.symm
    exact this _ (List.mem_map_of_mem _ hr)
  -- the row equations at parameters with nonzero centered coordinate
  have hrowmem : ∀ t ∈ ts,
      v.1 * ((s * (t - m) * dir.1) * (s * (t - m) * dir.1) +
          (s * (t - m) * dir.2) * (s * (t - m) * dir.2))
        + v.2.1 * (s * (t - m) * dir.1) + v.2.2 * (s * (t - m) * dir.2)
        = 0 := by
    intro t ht
    have hmem : ((s * (t - m) * dir.1) * (s * (t - m) * dir.1) +
        (s * (t - m) * dir.2) * (s * (t - m) * dir.2),
       s * (t - m) * dir.1, s * (t - m) * dir.2) ∈ rows := by
      rw [hrows]
      exact List.mem_map_of_mem _ ht
    have hdt := hdots _ hmem
    unfold dot3 at hdt
    have hdt2 : ((s * (t - m) * dir.1) * (s * (t - m) * dir.1) +
        (s * (t - m) * dir.2) * (s * (t - m) * dir.2)) * v.1
        + (s * (t - m) * dir.1) * v.2.1
        + (s * (t - m) * dir.2) * v.2.2 = 0 := hdt
    linear_combination hdt2
  -- choose two distinct parameters with nonzero centered coordinate
  have hv1 : v.1 = 0 := by
    have key : ∀ a b : ℚ, a ∈ ts → b ∈ ts → a ≠ b →
        a - m ≠ 0 → b - m ≠ 0 → v.1 = 0 := by
      intro a b ha hb hab hma hmb
      have ea := hrowmem a ha
      have eb := hrowmem b hb
      have hcomb : v.1 * (s * s * (dir.1 * dir.1 + dir.2 * dir.2)
          * ((a - m) * (b - m) * ((a - m) - (b - m)))) = 0 := by
        linear_combination (b - m) * ea - (a - m) * eb
      have hnz : s * s * (dir.1 * dir.1 + dir.2 * dir.2)
          * ((a - m) * (b - m) * ((a - m) - (b - m))) ≠ 0 := by
        apply mul_ne_zero (mul_ne_zero (mul_ne_zero hs hs) hD)
        apply mul_ne_zero (mul_ne_zero hma hmb)
        intro hcon
        exact hab (by linarith [sub_eq_zero.mp hcon])
      rcases mul_eq_zero.mp hcomb with h | h
      · exact h
      · exact absurd h hnz
    by_cases e1 : t1 - m = 0
    · have e2 : t2 - m ≠ 0 := by
        intro hcon
        exact d12 (by linarith [sub_eq_zero.mp e1, sub_eq_zero.mp hcon])
      have e3 : t3 - m ≠ 0 := by
        intro hcon
        exact d13 (by linarith [sub_eq_zero.mp e1, sub_eq_zero.mp hcon])
      exact key t2 t3 h2 h3 d23 e2 e3
    · by_cases e2 : t2 - m = 0
      · have e3 : t3 - m ≠ 0 := by
          intro hcon
          exact d23 (by linarith [sub_eq_zero.mp e2, sub_eq_zero.mp hcon])
        exact key t1 t3 h1 h3 d13 e1 e3
      · exact key t1 t2 h1 h2 d12 e1 e2
  -- the degenerate-line gate fires
  unfold fit_circle_to_segment
  rw [if_neg (by simp only [List.length_map]; omega)]
  rw [if_pos (by rw [hv1]; norm_num)]

/-- The pair `(0, vC5)` is a legitimate eigensolver choice on `segC5`. -/
theorem eigC5_chosen : IsChosenEig (designRows 1 segC5) 0 vC5 := by
  refine ⟨by simp [vC5, zero3], ?_, ?_⟩
  · norm_num [segC5, designRows, centeredScaled, meanQ, List.map_cons,
      List.map_nil, List.sum_cons, List.sum_nil, List.length_cons,
      List.length_nil, aMul, dot3, smul3, add3, zero3, bMul, List.foldr_cons,
      List.foldr_nil, vC5, Prod.mk.injEq]
  · intro mu w _ _
    simp only [abs_zero]
    exact abs_nonneg mu

/-- C5 counterexample: on the exactly straight window `segC5`, the
eigensolver choice `(0, vC5)` is legitimate, yet the fit returns the invalid
sentinel 0 and `calculate_curvature` over this contour retains NOTHING
(returns `None`) — the straight window is dropped, not retained with
curvature magnitude approximately 0 as the claim states. -/
theorem C5_counterexample :
    IsChosenEig (designRows paramsC2.pixel_size segC5) 0 vC5
    ∧ fit_circle_to_segment paramsC2 vC5 segC5 = 0
    ∧ calculate_curvature (fun s => fit_circle_to_segment paramsC2 vC5 s)
        segC5 { paramsC2 with n_samples := 3 } none = none := by
  have hpix : paramsC2.pixel_size = 1 := by norm_num [paramsC2, paramsDefault]
  refine ⟨by rw [hpix]; exact eigC5_chosen, ?_, ?_⟩
  · norm_num [fit_circle_to_segment, segC5, vC5]
  · norm_num [calculate_curvature, linspaceIdx, segC5, vC5,
      fit_circle_to_segment, List.filterMap]

/-- C5 witness: the amended straight-line theorem applied to the window
`segC5` presented as points of the line through (0,0) with direction (1,1)
at parameters 0, 1, 2. -/
theorem C5_witness :
    ((1 : ℚ), (1 : ℚ)) ≠ ((0 : ℚ), (0 : ℚ))
    ∧ paramsC2.pixel_size ≠ 0
    ∧ fit_circle_to_segment paramsC2 vC5
        (([0, 1, 2] : List ℚ).map
          (fun t => addQ (0, 0) (smulQ t (1, 1)))) = 0 :=
  ⟨by norm_num, by norm_num [paramsC2, paramsDefault],
   C5_straight_line_window_dropped paramsC2 (0, 0) (1, 1) [0, 1, 2] 0 vC5
     (by norm_num [Prod.ext_iff]) (by norm_num [paramsC2, paramsDefault])
     0 1 2 (by norm_num) (by norm_num) (by norm_num)
     (by norm_num) (by norm_num) (by norm_num)
     (by
       have : (([0, 1, 2] : List ℚ).map
           (fun t => addQ (0, 0) (smulQ t (1, 1)))) = segC5 := by
         norm_num [addQ, smulQ, segC5]
       rw [this]
       have hpix : paramsC2.pixel_size = 1 := by
         norm_num [paramsC2, paramsDefault]
       rw [hpix]
       exact eigC5_chosen)⟩

/-- Concrete wrapped-index windows used by the witnesses. -/
theorem wrapEval_3_1_5 : wrapIndices 3 1 5 = [2, 0, 1, 2, 0, 1, 2, 0, 1, 2, 0] := by decide

/-- Concrete wrapped-index window of the C9 witness at index 0. -/
theorem wrapEval_4_0_1 : wrapIndices 4 0 1 = [3, 0, 1] := by decide

/-- Concrete wrapped-index window of the C9 witness at index 3. -/
theorem wrapEval_4_3_1 : wrapIndices 4 3 1 = [2, 3, 0] := by decide

/-- Concrete evenly spaced index list of the C9 witness. -/
theorem linspaceEval_3_2 : linspaceIdx 3 2 = [0, 3] := by decide

/-- Concrete sample window of `check_point_validity` in the witnesses. -/
theorem segEval_segI : segment_of ([(22, 24), (24, 24), (26, 24)] : List Q2)
      10 1
    = [(26, 24), (22, 24), (24, 24), (26, 24), (22, 24), (24, 24), (26, 24),
       (22, 24), (24, 24), (26, 24), (22, 24)] := by
  unfold segment_of
  rw [show ([(22, 24), (24, 24), (26, 24)] : List Q2).length = 3 from rfl,
    wrapEval_3_1_5]
  norm_num

/-- C7: every retained intensity measurement of
`_calculate_single_intensity`, and every point `check_point_validity`
accepts, has interior overlap at least `interior_threshold`; windows below
the threshold are returned as `None`/rejected and never appear. -/
theorem C7_retained_overlap_ge_threshold
    (rast : List (ℤ × ℤ) → List (ℤ × ℤ)) (P : AnalysisParameters)
    (n n2 : Q2) (seg contour : List Q2) (idx : ℕ)
    (fluor mask fluor2 mask2 : ImgQ) (d : IntensityMeas) (c : ValidityData)
    (hd : calculate_single_intensity rast P n seg fluor mask = some d)
    (hc : check_point_validity rast P n2 contour idx fluor2 mask2 = some c) :
    P.interior_threshold ≤ d.interior_overlap
    ∧ P.interior_threshold ≤ c.interior_overlap := by
  constructor
  · simp only [calculate_single_intensity] at hd
    split_ifs at hd <;>
    first
    | exact Option.noConfusion hd
    | (split at hd <;>
       first
       | exact Option.noConfusion hd
       | (injection hd with hd2
          rw [← hd2]
          exact le_of_not_lt (by assumption)))
  · simp only [check_point_validity] at hc
    split_ifs at hc <;>
    first
    | exact Option.noConfusion hc
    | (injection hc with hc2
       rw [← hc2]
       exact le_of_not_lt (by assumption))

/-- C7 witness: both routines at the concrete scenario return retained
measurements, whose overlaps (100 and 100) satisfy the default threshold
0. -/
theorem C7_witness :
    calculate_single_intensity rastI paramsDefault (0, 1) segI fluorI maskIa
      = some dIa
    ∧ check_point_validity rastI paramsDefault (0, -1) segI 1 fluorI maskIa
      = some cIa
    ∧ paramsDefault.interior_threshold ≤ dIa.interior_overlap
    ∧ paramsDefault.interior_threshold ≤ cIa.interior_overlap := by
  have hd : calculate_single_intensity rastI paramsDefault (0, 1) segI fluorI
      maskIa = some dIa := by
    norm_num [calculate_single_intensity, flip_to_interior, segI, fluorI, maskIa, rastI,
      paramsDefault, dIa, pytrunc, addQ, subQ, smulQ, rot90, sqnormQ,
      List.filter, IntensityMeas.mk.injEq]
  have hc : check_point_validity rastI paramsDefault (0, -1) segI 1 fluorI
      maskIa = some cIa := by
    norm_num [check_point_validity, flip_to_interior, segEval_segI,
      wrapEval_3_1_5, segI, fluorI, maskIa, rastI,
      paramsDefault, cIa, pytrunc, addQ, subQ, smulQ, rot90, sqnormQ,
      List.filter, ValidityData.mk.injEq]
  have h := C7_retained_overlap_ge_threshold rastI paramsDefault (0, 1)
    (0, -1) segI segI 1 fluorI maskIa fluorI maskIa dIa cIa hd hc
  exact ⟨hd, hc, h.1, h.2⟩

/-- C4 (amended): a retained measurement's normal has unit magnitude
(squared norm 1, tied to the external normalization via `normalizesTo`);
and WHEN the distance-5 test pixel of the candidate normal is in bounds and
inside the mask, the normal is kept unflipped and its test step lands
inside the interior mask.  (The counterexample below shows the
unconditional landing property of the claim is false: the flip is applied
at most once and never re-verified.) -/
theorem C4_retained_normal_unit_and_conditional_landing
    (rast : List (ℤ × ℤ) → List (ℤ × ℤ)) (P : AnalysisParameters)
    (n : Q2) (seg : List Q2) (fluor mask : ImgQ) (d : IntensityMeas)
    (hn : normalizesTo (rot90 (subQ (seg.getLastD (0, 0)) seg.headI)) n)
    (hd : calculate_single_intensity rast P n seg fluor mask = some d) :
    sqnormQ d.normal = 1
    ∧ ((0 ≤ pytrunc (addQ (seg.getD (seg.length / 2) (0, 0))
          (smulQ 5 n)).1
        ∧ pytrunc (addQ (seg.getD (seg.length / 2) (0, 0))
          (smulQ 5 n)).1 < (mask.w : ℤ)
        ∧ 0 ≤ pytrunc (addQ (seg.getD (seg.length / 2) (0, 0))
          (smulQ 5 n)).2
        ∧ pytrunc (addQ (seg.getD (seg.length / 2) (0, 0))
          (smulQ 5 n)).2 < (mask.h : ℤ)
        ∧ mask.px (pytrunc (addQ (seg.getD (seg.length / 2) (0, 0))
            (smulQ 5 n)).2)
          (pytrunc (addQ (seg.getD (seg.length / 2) (0, 0))
            (smulQ 5 n)).1) ≠ 0) →
      d.normal = n
      ∧ mask.px
          (pytrunc (addQ (seg.getD (seg.length / 2) (0, 0))
            (smulQ 5 d.normal)).2)
          (pytrunc (addQ (seg.getD (seg.length / 2) (0, 0))
            (smulQ 5 d.normal)).1) ≠ 0) := by
  have hunit : sqnormQ n = 1 := hn.1
  have hdn : d.normal
      = flip_to_interior mask (seg.getD (seg.length / 2) (0, 0)) n := by
    simp only [calculate_single_intensity] at hd
    split_ifs at hd <;>
    first
    | exact Option.noConfusion hd
    | (split at hd <;>
       first
       | exact Option.noConfusion hd
       | (injection hd with hd2
          rw [← hd2]))
  constructor
  · rw [hdn]
    unfold flip_to_interior
    split_ifs with hc
    · simp only [sqnormQ, smulQ] at hunit ⊢
      linear_combination hunit
    · exact hunit
  · intro hinside
    have hnoflip : flip_to_interior mask (seg.getD (seg.length / 2) (0, 0)) n
        = n := by
      unfold flip_to_interior
      rw [if_neg]
      intro hcon
      exact hinside.2.2.2.2 hcon.2.2.2.2
    rw [hdn, hnoflip]
    exact ⟨rfl, hinside.2.2.2.2⟩

/-- C4 counterexample: over `maskIb` both candidate directions' test pixels
lie outside the interior.  The source flips once without re-checking:
`_calculate_single_intensity` RETAINS the measurement (default threshold 0),
its stored normal is the flipped `(0, -1)`, and the distance-5 step along
that retained normal lands on pixel `(24, 19)` — within bounds but OUTSIDE
the interior mask, contradicting the claimed landing guarantee. -/
theorem C4_counterexample :
    normalizesTo (rot90 (subQ (segI.getLastD (0, 0)) segI.headI)) (0, 1)
    ∧ calculate_single_intensity rastI paramsDefault (0, 1) segI fluorI maskIb
      = some dIb
    ∧ dIb.normal = (0, -1)
    ∧ pytrunc (addQ (24, 24) (smulQ 5 dIb.normal)).1 = 24
    ∧ pytrunc (addQ (24, 24) (smulQ 5 dIb.normal)).2 = 19
    ∧ maskIb.px 19 24 = 0 := by
  refine ⟨⟨by norm_num [sqnormQ], 4, by norm_num, ?_⟩, ?_, ?_, ?_, ?_, ?_⟩
  · norm_num [segI, rot90, subQ, smulQ]
  · norm_num [calculate_single_intensity, flip_to_interior, segI, fluorI, maskIb, rastI,
      paramsDefault, dIb, pytrunc, addQ, subQ, smulQ, rot90, sqnormQ,
      List.filter, IntensityMeas.mk.injEq]
  · norm_num [dIb]
  · norm_num [dIb, pytrunc, addQ, smulQ]
  · norm_num [dIb, pytrunc, addQ, smulQ]
  · norm_num [maskIb]

/-- C4 witness: the amended theorem applied to the `maskIa` scenario, where
the candidate's test pixel is inside: the retained normal is the unflipped
unit vector `(0, 1)` and its step lands inside the mask. -/
theorem C4_witness :
    normalizesTo (rot90 (subQ (segI.getLastD (0, 0)) segI.headI)) (0, 1)
    ∧ sqnormQ dIa.normal = 1
    ∧ dIa.normal = (0, 1)
    ∧ maskIa.px
        (pytrunc (addQ (segI.getD (segI.length / 2) (0, 0))
          (smulQ 5 dIa.normal)).2)
        (pytrunc (addQ (segI.getD (segI.length / 2) (0, 0))
          (smulQ 5 dIa.normal)).1) ≠ 0 := by
  have hn : normalizesTo (rot90 (subQ (segI.getLastD (0, 0)) segI.headI))
      (0, 1) := by
    refine ⟨by norm_num [sqnormQ], 4, by norm_num, ?_⟩
    norm_num [segI, rot90, subQ, smulQ]
  have hd : calculate_single_intensity rastI paramsDefault (0, 1) segI fluorI
      maskIa = some dIa := by
    norm_num [calculate_single_intensity, flip_to_interior, segI, fluorI, maskIa, rastI,
      paramsDefault, dIa, pytrunc, addQ, subQ, smulQ, rot90, sqnormQ,
      List.filter, IntensityMeas.mk.injEq]
  have h := C4_retained_normal_unit_and_conditional_landing rastI
    paramsDefault (0, 1) segI fluorI maskIa dIa hn hd
  have hcond : (0 ≤ pytrunc (addQ (segI.getD (segI.length / 2) (0, 0))
        (smulQ 5 ((0 : ℚ), (1 : ℚ)))).1
      ∧ pytrunc (addQ (segI.getD (segI.length / 2) (0, 0))
        (smulQ 5 ((0 : ℚ), (1 : ℚ)))).1 < (maskIa.w : ℤ)
      ∧ 0 ≤ pytrunc (addQ (segI.getD (segI.length / 2) (0, 0))
        (smulQ 5 ((0 : ℚ), (1 : ℚ)))).2
      ∧ pytrunc (addQ (segI.getD (segI.length / 2) (0, 0))
        (smulQ 5 ((0 : ℚ), (1 : ℚ)))).2 < (maskIa.h : ℤ)
      ∧ maskIa.px (pytrunc (addQ (segI.getD (segI.length / 2) (0, 0))
          (smulQ 5 ((0 : ℚ), (1 : ℚ)))).2)
        (pytrunc (addQ (segI.getD (segI.length / 2) (0, 0))
          (smulQ 5 ((0 : ℚ), (1 : ℚ)))).1) ≠ 0) := by
    norm_num [segI, maskIa, pytrunc, addQ, smulQ]
  refine ⟨hn, h.1, (h.2 hcond).1, ?_⟩
  have := (h.2 hcond).2
  rw [(h.2 hcond).1] at this ⊢
  exact this

/-- C9 witness: a concrete successful `calculate_curvature` run (constant
nonzero fit on a four-point contour, two samples), with the alignment
conclusion instantiated. -/
theorem C9_witness :
    calculate_curvature (fun _ => (1 : ℚ)) [(0, 0), (1, 0), (2, 0), (3, 0)]
      { paramsDefault with n_samples := 2, segment_length := 3 } none
      = some (dC9, [0, 3])
    ∧ dC9.points
      = ([0, 3] : List ℕ).map
        (fun i => ([(0, 0), (1, 0), (2, 0), (3, 0)] : List Q2).getD i (0, 0)) := by
  have hsome : calculate_curvature (fun _ => (1 : ℚ))
      [(0, 0), (1, 0), (2, 0), (3, 0)]
      { paramsDefault with n_samples := 2, segment_length := 3 } none
      = some (dC9, [0, 3]) := by
    norm_num [calculate_curvature, linspaceEval_3_2, wrapEval_4_0_1,
      wrapEval_4_3_1, paramsDefault, dC9, List.filterMap,
      CurvatureData.mk.injEq]
  exact ⟨hsome,
    (C9_curvature_output_aligned (fun _ => (1 : ℚ))
      [(0, 0), (1, 0), (2, 0), (3, 0)]
      { paramsDefault with n_samples := 2, segment_length := 3 } none dC9
      [0, 3] hsome).2.1⟩

/-- Sum of an if-padded map equals the sum over the filtered sublist. -/
theorem sum_map_ite_filter (l : List ℚ) (c : ℚ → Prop) [DecidablePred c]
    (f : ℚ → ℚ) :
    (l.map (fun p => if c p then f p else 0)).sum
      = ((l.filter (fun p => decide (c p))).map f).sum := by
  induction l with
  | nil => rfl
  | cons a l ih =>
    by_cases h : c a <;>
      simp [List.filter_cons, h, ih]

/-- Folding `min` over a nonnegative list containing 0 yields 0. -/
theorem foldl_min_zero (l : List ℚ) (a : ℚ) (hl : ∀ x ∈ l, 0 ≤ x)
    (ha : 0 ≤ a) (h0 : a = 0 ∨ 0 ∈ l) : l.foldl min a = 0 := by
  induction l generalizing a with
  | nil =>
    rcases h0 with rfl | h
    · rfl
    · exact absurd h (List.not_mem_nil 0)
  | cons b l ih =>
    have hb : 0 ≤ b := hl b (List.mem_cons_self b l)
    show l.foldl min (min a b) = 0
    rcases h0 with rfl | h
    · rw [min_eq_left hb]
      exact ih 0 (fun x hx => hl x (List.mem_cons_of_mem _ hx)) le_rfl
        (Or.inl rfl)
    · rcases List.mem_cons.mp h with h0b | h0l
      · rw [show min a b = 0 from by rw [← h0b]; exact min_eq_right ha]
        exact ih 0 (fun x hx => hl x (List.mem_cons_of_mem _ hx)) le_rfl
          (Or.inl rfl)
      · exact ih (min a b) (fun x hx => hl x (List.mem_cons_of_mem _ hx))
          (le_min ha hb) (Or.inr h0l)

/-- C10: in `sample_intensity` every out-of-bounds probe contributes the
value 0 to the reduction instead of being skipped, and the point is never
rejected: (1) the probe list has exactly `depth` entries, one per linspace
position, in-bounds or not; (2) the mean is the sum of the IN-BOUNDS sample
values divided by the FULL probe count `depth` (skip-semantics would divide
by the in-bounds count); (3) when some probe is out of bounds and the image
is nonnegative, the reported minimum is the padded 0. -/
theorem C10_oob_probes_contribute_zero (image : ImgQ) (point normal : Q2)
    (depth : ℕ)
    (hoob : ∃ pos ∈ linspaceQ (depth : ℚ) depth,
      ¬ probe_in_bounds image point normal pos)
    (hnn : ∀ y x : ℤ, 0 ≤ image.px y x) :
    (sample_probes image point normal depth).length = depth
    ∧ sample_intensity image point normal depth MeasureKind.mean
      = (((linspaceQ (depth : ℚ) depth).filter
          (fun pos => decide (probe_in_bounds image point normal pos))).map
          (probe_value image point normal)).sum / (depth : ℚ)
    ∧ sample_intensity image point normal depth MeasureKind.minimum = 0 := by
  have hlen : (sample_probes image point normal depth).length = depth := by
    unfold sample_probes linspaceQ
    rw [List.length_map, List.length_map, List.length_range]
  have hsum : (sample_probes image point normal depth).sum
      = (((linspaceQ (depth : ℚ) depth).filter
        (fun pos => decide (probe_in_bounds image point normal pos))).map
        (probe_value image point normal)).sum := by
    unfold sample_probes
    exact sum_map_ite_filter _ _ _
  have hmem0 : (0 : ℚ) ∈ sample_probes image point normal depth := by
    rcases hoob with ⟨pos, hpos, hnb⟩
    unfold sample_probes
    have hz : (if probe_in_bounds image point normal pos
        then probe_value image point normal pos else 0) = 0 := if_neg hnb
    exact List.mem_map.mpr ⟨pos, hpos, hz⟩
  have hallnn : ∀ x ∈ sample_probes image point normal depth, 0 ≤ x := by
    intro x hx
    unfold sample_probes at hx
    rcases List.mem_map.mp hx with ⟨pos, _, rfl⟩
    by_cases hb : probe_in_bounds image point normal pos
    · rw [if_pos hb]
      exact hnn _ _
    · rw [if_neg hb]
  refine ⟨hlen, ?_, ?_⟩
  · unfold sample_intensity
    cases hp : sample_probes image point normal depth with
    | nil =>
      have hd0 : depth = 0 := by
        rw [hp] at hlen
        simpa using hlen.symm
      subst hd0
      simp [linspaceQ]
    | cons v vr =>
      rw [hp] at hsum hlen
      show (v :: vr).sum / (((v :: vr).length : ℕ) : ℚ)
          = (((linspaceQ (depth : ℚ) depth).filter
            (fun pos => decide (probe_in_bounds image point normal pos))).map
            (probe_value image point normal)).sum / (depth : ℚ)
      rw [hsum, hlen]
  · unfold sample_intensity
    cases hp : sample_probes image point normal depth with
    | nil =>
      rw [hp] at hmem0
    | cons v vr =>
      rw [hp] at hmem0 hallnn
      have hv : 0 ≤ v := hallnn v (List.mem_cons_self v vr)
      rcases List.mem_cons.mp hmem0 with h0 | h0
      · exact foldl_min_zero vr v
          (fun x hx => hallnn x (List.mem_cons_of_mem _ hx)) hv (Or.inl h0.symm)
      · exact foldl_min_zero vr v
          (fun x hx => hallnn x (List.mem_cons_of_mem _ hx)) hv (Or.inr h0)

/-- C10 witness: from the point `(8, 8)` along the normal `(1, 0)` with depth
4, the linspace positions are 0, 4/3, 8/3, 4; the last two probes round to
columns 11 and 12, out of the 10-wide image, so the probe list is
`[5, 5, 0, 0]`: the mean is 10/4 and the minimum is the padded 0. -/
theorem C10_witness :
    (8 : ℚ) / 3 ∈ linspaceQ ((4 : ℕ) : ℚ) 4
    ∧ ¬ probe_in_bounds imgC10 (8, 8) (1, 0) (8 / 3)
    ∧ (sample_probes imgC10 (8, 8) (1, 0) 4).length = 4
    ∧ sample_intensity imgC10 (8, 8) (1, 0) 4 MeasureKind.mean
      = (((linspaceQ ((4 : ℕ) : ℚ) 4).filter
          (fun pos => decide (probe_in_bounds imgC10 (8, 8) (1, 0) pos))).map
          (probe_value imgC10 (8, 8) (1, 0))).sum / ((4 : ℕ) : ℚ)
    ∧ sample_intensity imgC10 (8, 8) (1, 0) 4 MeasureKind.minimum = 0 := by
  have hmem : (8 : ℚ) / 3 ∈ linspaceQ ((4 : ℕ) : ℚ) 4 := by
    norm_num [linspaceQ, List.range_succ]
  have hnb : ¬ probe_in_bounds imgC10 (8, 8) (1, 0) (8 / 3) := by
    norm_num [probe_in_bounds, imgC10, pyround, addQ, smulQ]
  have h := C10_oob_probes_contribute_zero imgC10 (8, 8) (1, 0) 4
    ⟨8 / 3, hmem, hnb⟩ (fun _ _ => by norm_num [imgC10])
  exact ⟨hmem, hnb, h.1, h.2.1, h.2.2⟩

/-- C8: smoothing with strength 0 is the identity on the contour, in both
implementations: `EdgeDetector.smooth_contour` with window size 0 (the
`window_size < 3` early return) and `EdgeData.smooth_contour` with sigma 0
(the non-positive-sigma branch returns a copy of the input).  This holds for
every behaviour of the external filters. -/
theorem C8_smoothing_zero_is_identity (savgol : ℕ → ℕ → List ℚ → List ℚ)
    (gaussian : ℚ → List Q2 → List Q2) (contour : List Q2) :
    smooth_contour savgol contour 0 = contour
    ∧ EdgeData_smooth_contour gaussian contour 0 = contour := by
  constructor
  · unfold smooth_contour
    rw [if_pos]
    norm_num
  · unfold EdgeData_smooth_contour
    rw [if_neg]
    norm_num

/-- C6 (amended): when no connected component of the thresholded mask
reaches the minimum area 100, `detect_edges` RETURNS NORMALLY with a zero
edge image and a `None` contour — it does not raise any `NoCellFound`
exception (no such error type exists in the program), and its blanket
`except` means no exception escapes in any case. -/
theorem C6_no_component_returns_none (img : BinImg)
    (h : ∀ p ∈ fgSet (binaryOf img),
      (component (binaryOf img) p).card < 100) :
    detect_edges img
      = ({ h := img.h, w := img.w, px := fun _ _ => 0 }, none) := by
  have hclean : fgSet (remove_small_objects (binaryOf img) 100) = ∅ := by
    apply Finset.eq_empty_iff_forall_not_mem.mpr
    intro p hp
    unfold fgSet remove_small_objects at hp
    simp only [Finset.mem_filter] at hp
    rcases hp with ⟨_, hpos⟩
    by_cases hc : (p.1, p.2) ∈ fgSet (binaryOf img)
        ∧ 100 ≤ (component (binaryOf img) (p.1, p.2)).card
    · exact absurd hc.2 (not_le.mpr (h (p.1, p.2) hc.1))
    · rw [if_neg hc] at hpos
      exact lt_irrefl 0 hpos
  have hfc : find_contours (remove_small_objects (binaryOf img) 100) = [] := by
    unfold find_contours
    rw [hclean]
    simp
  unfold detect_edges
  rw [hfc]
  rfl

/-- C6 counterexample: on the all-zero mask, `detect_edges` returns the pair
`(zero image, None)` — a normal return value, not a raised `NoCellFound`
error (which the claim asserts and which does not exist in the code). -/
theorem C6_counterexample_zero_mask :
    detect_edges zeroMask4
      = ({ h := 4, w := 4, px := fun _ _ => 0 }, none) := by
  have hfg : fgSet (binaryOf zeroMask4) = ∅ := by decide
  have hclean : fgSet (remove_small_objects (binaryOf zeroMask4) 100)
      = ∅ := by
    apply Finset.eq_empty_iff_forall_not_mem.mpr
    intro p hp
    unfold fgSet remove_small_objects at hp
    simp only [Finset.mem_filter] at hp
    rcases hp with ⟨_, hpos⟩
    rw [if_neg] at hpos
    · exact lt_irrefl 0 hpos
    · intro hcon
      rw [hfg] at hcon
      exact absurd hcon.1 (Finset.not_mem_empty _)
  have hfc : find_contours (remove_small_objects (binaryOf zeroMask4) 100)
      = [] := by
    unfold find_contours
    rw [hclean]
    simp
  unfold detect_edges
  rw [hfc]
  rfl

/-- C6 witness: the amended theorem applied to the blob mask, whose only
component has 4 pixels (the hypothesis is discharged by computation). -/
theorem C6_witness :
    detect_edges blobMask
      = ({ h := 6, w := 6, px := fun _ _ => 0 }, none) :=
  C6_no_component_returns_none blobMask (by decide)

end CellEdge
